import Mathlib

/-
  Shallow embedding of src/segment_tree.cpp : a segment tree over a closed
  integer range [left_bound, right_bound] supporting range-add updates and
  range-sum queries with lazy propagation.

  Modelling notes.
  * The two C++ vectors _tree and _tags are modelled as total functions
    Nat → Int; the constructors initialise them to the all-zero function,
    matching vector<int>(space, 0).  Out-of-range slots simply stay 0.
  * C++ int arithmetic is modelled by unbounded Int (signed overflow is
    undefined behaviour in the source, so the mathematical integers are the
    faithful reading of the intended semantics).
  * The recursive procedures _build, _add, _get_sum recurse without a
    structural termination argument in C++; on inputs violating the
    documented preconditions they can recurse forever.  We model them with
    an explicit fuel parameter bounding recursion depth: with fuel larger
    than the node-range size the fueled function performs exactly the C++
    recursion (proved by the lemmas below); the top-level wrappers pass
    (right_bound - left_bound).toNat + 1 fuel, which suffices for every
    call chain that respects the preconditions.
  * Int division: / on Int in Lean agrees with C++ truncating division on
    nonnegative operands, and (rb - lb) is nonnegative on every call made
    under the documented preconditions.
-/

/-- Pointwise update of a store function, modelling a single vector
write v[i] = x. -/
def upd (f : Nat → Int) (i : Nat) (v : Int) : Nat → Int :=
  fun j => if j = i then v else f j

/-- The mutable state of the tree: the node aggregates (_tree) and the lazy
tags (_tags). -/
@[ext]
structure Store where
  tr : Nat → Int
  tg : Nat → Int

/-- The push-down block shared verbatim by _add (lines 64-72) and _get_sum
(lines 103-111):
  if (_tags[idx] != 0 && left_bound != right_bound) \x7b
    _tags[idx*2] += _tags[idx];
    _tags[idx*2+1] += _tags[idx];
    _tree[idx*2] += _tags[idx] * (mid - left_bound + 1);
    _tree[idx*2+1] += _tags[idx] * (right_bound - mid);
    _tags[idx] = 0;
  \x7d
The writes are threaded sequentially exactly as in the source. -/
def pushDown (idx : Nat) (lb mid rb : Int) (s : Store) : Store :=
  if s.tg idx ≠ 0 ∧ lb ≠ rb then
    let tg1 := upd s.tg (2*idx) (s.tg (2*idx) + s.tg idx)
    let tg2 := upd tg1 (2*idx+1) (tg1 (2*idx+1) + tg1 idx)
    let tr1 := upd s.tr (2*idx) (s.tr (2*idx) + tg2 idx * (mid - lb + 1))
    let tr2 := upd tr1 (2*idx+1) (tr1 (2*idx+1) + tg2 idx * (rb - mid))
    let tg3 := upd tg2 idx 0
    ⟨tr2, tg3⟩
  else s

/-- SegmentTree::_add(value, idx, left, right, left_bound, right_bound)
(lines 51-86), with fuel bounding the recursion depth.  When fuel runs out
the state is returned unchanged; this branch is unreachable whenever the
call respects the documented preconditions and fuel exceeds the node-range
size. -/
def addAux : Nat → Int → Nat → Int → Int → Int → Int → Store → Store
  | 0, _, _, _, _, _, _, s => s
  | fuel+1, value, idx, left, right, lb, rb, s =>
    if left ≤ lb ∧ rb ≤ right then
      ⟨upd s.tr idx (s.tr idx + value * (rb - lb + 1)),
       upd s.tg idx (s.tg idx + value)⟩
    else
      let mid := lb + (rb - lb) / 2
      let s1 := pushDown idx lb mid rb s
      let s2 := if left ≤ mid then addAux fuel value (2*idx) left right lb mid s1 else s1
      let s3 := if right ≥ mid + 1 then addAux fuel value (2*idx+1) left right (mid+1) rb s2 else s2
      ⟨upd s3.tr idx (s3.tr (2*idx) + s3.tr (2*idx+1)), s3.tg⟩

/-- SegmentTree::_get_sum(idx, left, right, left_bound, right_bound)
(lines 94-123), returning the computed sum together with the mutated
state, with fuel bounding the recursion depth as in addAux. -/
def getSumAux : Nat → Nat → Int → Int → Int → Int → Store → Int × Store
  | 0, _, _, _, _, _, s => (0, s)
  | fuel+1, idx, left, right, lb, rb, s =>
    if left ≤ lb ∧ rb ≤ right then (s.tr idx, s)
    else
      let mid := lb + (rb - lb) / 2
      let s1 := pushDown idx lb mid rb s
      let p2 := if left ≤ mid then getSumAux fuel (2*idx) left right lb mid s1 else (0, s1)
      let p3 := if right ≥ mid + 1 then getSumAux fuel (2*idx+1) left right (mid+1) rb p2.2 else (0, p2.2)
      (p2.1 + p3.1, p3.2)

/-- SegmentTree::_build(idx, left, right, vec) (lines 32-42), with fuel as
above.  vec[left] is modelled by List.getD at left.toNat; every access made
under the preconditions has 0 ≤ left < vec.length. -/
def buildAux : Nat → Nat → Int → Int → List Int → (Nat → Int) → Nat → Int
  | 0, _, _, _, _, tr => tr
  | fuel+1, idx, left, right, vec, tr =>
    if left = right then upd tr idx (vec.getD left.toNat 0)
    else
      let mid := left + (right - left) / 2
      let tr1 := buildAux fuel (2*idx) left mid vec tr
      let tr2 := buildAux fuel (2*idx+1) (mid+1) right vec tr1
      upd tr2 idx (tr2 (2*idx) + tr2 (2*idx+1))

/-- The SegmentTree object: range bounds plus the two stores. -/
structure SegmentTree where
  left_bound : Int
  right_bound : Int
  tree : Nat → Int
  tags : Nat → Int

/-- SegmentTree(int left_bound, int right_bound) (lines 127-133): the empty
constructor, all node slots zero. -/
def SegmentTree.mkEmpty (lb rb : Int) : SegmentTree :=
  ⟨lb, rb, fun _ => 0, fun _ => 0⟩

/-- SegmentTree(const vector<int>&) (lines 135-141): bulk construction over
[0, vec.size()-1] followed by _build(1, 0, vec.size()-1, vec). -/
def SegmentTree.ofVec (v : List Int) : SegmentTree :=
  let lb : Int := 0
  let rb : Int := (v.length : Int) - 1
  ⟨lb, rb, buildAux ((rb - lb).toNat + 1) 1 lb rb v (fun _ => 0), fun _ => 0⟩

/-- SegmentTree::add(value, left, right) (lines 149-151). -/
def SegmentTree.add (t : SegmentTree) (value l r : Int) : SegmentTree :=
  let s := addAux ((t.right_bound - t.left_bound).toNat + 1) value 1 l r
             t.left_bound t.right_bound ⟨t.tree, t.tags⟩
  ⟨t.left_bound, t.right_bound, s.tr, s.tg⟩

/-- SegmentTree::get_sum(left, right) (lines 144-146): returns the sum and
the (mutated) tree, since _get_sum rewrites the stores while pushing tags. -/
def SegmentTree.get_sum (t : SegmentTree) (l r : Int) : Int × SegmentTree :=
  let p := getSumAux ((t.right_bound - t.left_bound).toNat + 1) 1 l r
             t.left_bound t.right_bound ⟨t.tree, t.tags⟩
  (p.1, ⟨t.left_bound, t.right_bound, p.2.tr, p.2.tg⟩)

/-- The trees reachable by a valid construction followed by valid add and
get_sum operations (the preconditions of spec section 6). -/
inductive Reachable : SegmentTree → Prop
  | mkEmpty (lb rb : Int) (h : lb ≤ rb) : Reachable (SegmentTree.mkEmpty lb rb)
  | ofVec (v : List Int) (h : v ≠ []) : Reachable (SegmentTree.ofVec v)
  | add (t : SegmentTree) (x l r : Int) (ht : Reachable t)
      (h1 : t.left_bound ≤ l) (h2 : l ≤ r) (h3 : r ≤ t.right_bound) :
      Reachable (t.add x l r)
  | query (t : SegmentTree) (l r : Int) (ht : Reachable t)
      (h1 : t.left_bound ≤ l) (h2 : l ≤ r) (h3 : r ≤ t.right_bound) :
      Reachable (t.get_sum l r).2

/-- The node decomposition relation: Desc idx lb rb j l2 r2 holds when the
node (j, [l2, r2]) belongs to the subtree decomposition rooted at the node
(idx, [lb, rb]), with children 2j and 2j+1 splitting at
mid = l + (r - l) / 2 exactly as the recursive procedures do. -/
inductive Desc : Nat → Int → Int → Nat → Int → Int → Prop
  | refl (idx : Nat) (lb rb : Int) : Desc idx lb rb idx lb rb
  | left {idx : Nat} {lb rb : Int} {j : Nat} {l2 r2 : Int}
      (h : Desc idx lb rb j l2 r2) (hlt : l2 < r2) :
      Desc idx lb rb (2*j) l2 (l2 + (r2 - l2) / 2)
  | right {idx : Nat} {lb rb : Int} {j : Nat} {l2 r2 : Int}
      (h : Desc idx lb rb j l2 r2) (hlt : l2 < r2) :
      Desc idx lb rb (2*j+1) (l2 + (r2 - l2) / 2 + 1) r2

/-- The nodes of the tree built over [L, R]: descendants of the root
(index 1, covering [L, R]). -/
def Node (L R : Int) (idx : Nat) (lb rb : Int) : Prop :=
  Desc 1 L R idx lb rb

/-- Index-level descendant relation: j lies in the subtree of array index i
of the infinite implicit binary tree (children 2i, 2i+1). -/
def descIdx (i j : Nat) : Prop := ∃ k, j / 2 ^ k = i

/-- The abstract point value represented at position p by the subtree
rooted at (idx, [lb, rb]): the leaf aggregate reached by descending to p
plus all lazy tags at the strictly internal nodes passed on the way (a tag
at an internal node has been applied to that node but not yet below it; a
leaf aggregate already includes its own tag). -/
def valAt (s : Store) (idx : Nat) (lb rb p : Int) : Int :=
  if h : lb < rb then
    let mid := lb + (rb - lb) / 2
    s.tg idx +
      (if p ≤ mid then valAt s (2*idx) lb mid p
       else valAt s (2*idx+1) (mid+1) rb p)
  else s.tr idx
termination_by (rb - lb).toNat
decreasing_by all_goals omega

/-- The aggregate-coherence invariant of the tree rooted at (idx, [lb, rb]):
at every internal node the aggregate equals the sum of the children
aggregates plus the pending tag times the range size (the lazy-tag contract
of spec section 3), recursively down the subtree. -/
def AggOK (s : Store) (idx : Nat) (lb rb : Int) : Prop :=
  if h : lb < rb then
    let mid := lb + (rb - lb) / 2
    s.tr idx = s.tr (2*idx) + s.tr (2*idx+1) + s.tg idx * (rb - lb + 1)
      ∧ AggOK s (2*idx) lb mid ∧ AggOK s (2*idx+1) (mid+1) rb
  else True
termination_by (rb - lb).toNat
decreasing_by all_goals omega

/-- The abstract value function of a whole tree. -/
def SegmentTree.val (t : SegmentTree) (p : Int) : Int :=
  valAt ⟨t.tree, t.tags⟩ 1 t.left_bound t.right_bound p

/-- The global invariant: well-formed bounds and aggregate coherence from
the root. -/
def TreeInv (t : SegmentTree) : Prop :=
  t.left_bound ≤ t.right_bound ∧ AggOK ⟨t.tree, t.tags⟩ 1 t.left_bound t.right_bound

/-! Basic facts about the index arithmetic and the two recursive
abstractions valAt and AggOK. -/

theorem upd_self (f : Nat → Int) (i : Nat) (v : Int) : upd f i v i = v := by
  simp [upd]

theorem upd_ne (f : Nat → Int) {i j : Nat} (v : Int) (h : j ≠ i) : upd f i v j = f j := by
  simp [upd, h]

theorem Desc.trans {i1 : Nat} {a1 b1 : Int} {i2 : Nat} {a2 b2 : Int} {i3 : Nat} {a3 b3 : Int}
    (h1 : Desc i1 a1 b1 i2 a2 b2) (h2 : Desc i2 a2 b2 i3 a3 b3) :
    Desc i1 a1 b1 i3 a3 b3 := by
  induction h2 with
  | refl => exact h1
  | left _ hlt ih => exact Desc.left ih hlt
  | right _ hlt ih => exact Desc.right ih hlt

theorem Desc.toIdx {i : Nat} {a b : Int} {j : Nat} {c d : Int}
    (h : Desc i a b j c d) : descIdx i j := by
  induction h with
  | refl => exact ⟨0, by simp⟩
  | @left j2 l2 r2 _ _ ih =>
    obtain ⟨k, hk⟩ := ih
    refine ⟨k + 1, ?_⟩
    have h2 : 2 * j2 / 2 = j2 := by omega
    calc 2 * j2 / 2 ^ (k + 1) = 2 * j2 / 2 / 2 ^ k := by
          rw [Nat.div_div_eq_div_mul, pow_succ, mul_comm (2^k) 2]
    _ = i := by rw [h2, hk]
  | @right j2 l2 r2 _ _ ih =>
    obtain ⟨k, hk⟩ := ih
    refine ⟨k + 1, ?_⟩
    have h2 : (2 * j2 + 1) / 2 = j2 := by omega
    calc (2 * j2 + 1) / 2 ^ (k + 1) = (2 * j2 + 1) / 2 / 2 ^ k := by
          rw [Nat.div_div_eq_div_mul, pow_succ, mul_comm (2^k) 2]
    _ = i := by rw [h2, hk]

theorem descIdx_ge {i j : Nat} (h : descIdx i j) : i ≤ j := by
  obtain ⟨k, hk⟩ := h
  calc i = j / 2 ^ k := hk.symm
  _ ≤ j := Nat.div_le_self _ _

theorem descIdx_sibling_disjoint {i j : Nat} (hi : 1 ≤ i)
    (h1 : descIdx (2*i) j) (h2 : descIdx (2*i+1) j) : False := by
  obtain ⟨k, hk⟩ := h1
  obtain ⟨m, hm⟩ := h2
  rcases lt_trichotomy k m with h | h | h
  · have e : j / 2 ^ m = 2 * i / 2 ^ (m - k) := by
      rw [← hk, Nat.div_div_eq_div_mul, ← pow_add]
      congr 2
      omega
    have h2le : (2:Nat) ≤ 2 ^ (m - k) := by
      calc (2:Nat) = 2 ^ 1 := by norm_num
      _ ≤ 2 ^ (m - k) := Nat.pow_le_pow_right (by norm_num) (by omega)
    have hd : 2 * i / 2 ^ (m - k) ≤ 2 * i / 2 := Nat.div_le_div_left h2le (by norm_num)
    omega
  · subst h
    omega
  · have e : j / 2 ^ k = (2 * i + 1) / 2 ^ (k - m) := by
      rw [← hm, Nat.div_div_eq_div_mul, ← pow_add]
      congr 2
      omega
    have h2le : (2:Nat) ≤ 2 ^ (k - m) := by
      calc (2:Nat) = 2 ^ 1 := by norm_num
      _ ≤ 2 ^ (k - m) := Nat.pow_le_pow_right (by norm_num) (by omega)
    have hd : (2 * i + 1) / 2 ^ (k - m) ≤ (2 * i + 1) / 2 := Nat.div_le_div_left h2le (by norm_num)
    omega

theorem desc_left_root {idx : Nat} {lb rb : Int} (h : lb < rb) :
    Desc idx lb rb (2*idx) lb (lb + (rb - lb) / 2) :=
  Desc.left (Desc.refl idx lb rb) h

theorem desc_right_root {idx : Nat} {lb rb : Int} (h : lb < rb) :
    Desc idx lb rb (2*idx+1) (lb + (rb - lb) / 2 + 1) rb :=
  Desc.right (Desc.refl idx lb rb) h

theorem desc_left_ne {idx : Nat} {lb rb : Int} {j : Nat} {l2 r2 : Int}
    (hidx : 1 ≤ idx) (h : Desc (2*idx) lb rb j l2 r2) : j ≠ idx := by
  intro hj
  have := descIdx_ge h.toIdx
  omega

theorem desc_right_ne {idx : Nat} {lb rb : Int} {j : Nat} {l2 r2 : Int}
    (hidx : 1 ≤ idx) (h : Desc (2*idx+1) lb rb j l2 r2) : j ≠ idx := by
  intro hj
  have := descIdx_ge h.toIdx
  omega

theorem valAt_leaf (s : Store) (idx : Nat) {lb rb : Int} (h : ¬ lb < rb) (p : Int) :
    valAt s idx lb rb p = s.tr idx := by
  rw [valAt]
  simp [h]

theorem valAt_node (s : Store) (idx : Nat) {lb rb : Int} (h : lb < rb) (p : Int) :
    valAt s idx lb rb p =
      s.tg idx + (if p ≤ lb + (rb - lb) / 2 then valAt s (2*idx) lb (lb + (rb - lb) / 2) p
        else valAt s (2*idx+1) (lb + (rb - lb) / 2 + 1) rb p) := by
  rw [valAt]
  simp [h]

theorem AggOK_leaf (s : Store) (idx : Nat) {lb rb : Int} (h : ¬ lb < rb) :
    AggOK s idx lb rb := by
  rw [AggOK]
  simp [h]

theorem AggOK_node (s : Store) (idx : Nat) {lb rb : Int} (h : lb < rb) :
    AggOK s idx lb rb ↔
      (s.tr idx = s.tr (2*idx) + s.tr (2*idx+1) + s.tg idx * (rb - lb + 1)
       ∧ AggOK s (2*idx) lb (lb + (rb - lb) / 2)
       ∧ AggOK s (2*idx+1) (lb + (rb - lb) / 2 + 1) rb) := by
  rw [AggOK]
  simp [h]

/-- Congruence: valAt only reads aggregates and internal-node tags inside
the subtree decomposition. -/
theorem valAt_congr (s1 s2 : Store) :
    ∀ (n idx : Nat) (lb rb : Int), (rb - lb).toNat ≤ n →
      (∀ j l2 r2, Desc idx lb rb j l2 r2 →
        s1.tr j = s2.tr j ∧ (l2 < r2 → s1.tg j = s2.tg j)) →
      ∀ p, valAt s1 idx lb rb p = valAt s2 idx lb rb p := by
  intro n
  induction n with
  | zero =>
    intro idx lb rb hn hagree p
    have hlt : ¬ lb < rb := by omega
    rw [valAt_leaf s1 idx hlt, valAt_leaf s2 idx hlt]
    exact (hagree idx lb rb (Desc.refl idx lb rb)).1
  | succ n ih =>
    intro idx lb rb hn hagree p
    by_cases hlt : lb < rb
    · rw [valAt_node s1 idx hlt, valAt_node s2 idx hlt]
      have htg := (hagree idx lb rb (Desc.refl idx lb rb)).2 hlt
      rw [htg]
      congr 1
      by_cases hp : p ≤ lb + (rb - lb) / 2
      · rw [if_pos hp, if_pos hp]
        exact ih (2*idx) lb (lb + (rb - lb) / 2) (by omega)
          (fun j l2 r2 hd => hagree j l2 r2 ((desc_left_root hlt).trans hd)) p
      · rw [if_neg hp, if_neg hp]
        exact ih (2*idx+1) (lb + (rb - lb) / 2 + 1) rb (by omega)
          (fun j l2 r2 hd => hagree j l2 r2 ((desc_right_root hlt).trans hd)) p
    · rw [valAt_leaf s1 idx hlt, valAt_leaf s2 idx hlt]
      exact (hagree idx lb rb (Desc.refl idx lb rb)).1

/-- Congruence for AggOK: it also only reads inside the decomposition. -/
theorem AggOK_congr (s1 s2 : Store) :
    ∀ (n idx : Nat) (lb rb : Int), (rb - lb).toNat ≤ n →
      (∀ j l2 r2, Desc idx lb rb j l2 r2 →
        s1.tr j = s2.tr j ∧ (l2 < r2 → s1.tg j = s2.tg j)) →
      (AggOK s1 idx lb rb ↔ AggOK s2 idx lb rb) := by
  intro n
  induction n with
  | zero =>
    intro idx lb rb hn hagree
    have hlt : ¬ lb < rb := by omega
    simp [AggOK_leaf s1 idx hlt, AggOK_leaf s2 idx hlt]
  | succ n ih =>
    intro idx lb rb hn hagree
    by_cases hlt : lb < rb
    · rw [AggOK_node s1 idx hlt, AggOK_node s2 idx hlt]
      have h0 := hagree idx lb rb (Desc.refl idx lb rb)
      have hL := hagree (2*idx) lb (lb + (rb - lb) / 2) (desc_left_root hlt)
      have hR := hagree (2*idx+1) (lb + (rb - lb) / 2 + 1) rb (desc_right_root hlt)
      rw [h0.1, h0.2 hlt, hL.1, hR.1]
      rw [ih (2*idx) lb (lb + (rb - lb) / 2) (by omega)
        (fun j l2 r2 hd => hagree j l2 r2 ((desc_left_root hlt).trans hd))]
      rw [ih (2*idx+1) (lb + (rb - lb) / 2 + 1) rb (by omega)
        (fun j l2 r2 hd => hagree j l2 r2 ((desc_right_root hlt).trans hd))]
    · simp [AggOK_leaf s1 idx hlt, AggOK_leaf s2 idx hlt]

/-! The push-down block: explicit description and its effect on valAt and
AggOK. -/

theorem pushDown_of_neg (idx : Nat) (lb mid rb : Int) (s : Store)
    (hg : ¬ (s.tg idx ≠ 0 ∧ lb ≠ rb)) : pushDown idx lb mid rb s = s := by
  rw [pushDown, if_neg hg]

theorem pushDown_eq (idx : Nat) (hidx : 1 ≤ idx) (lb mid rb : Int) (s : Store)
    (hg : s.tg idx ≠ 0 ∧ lb ≠ rb) :
    pushDown idx lb mid rb s =
      ⟨fun j => if j = 2*idx then s.tr (2*idx) + s.tg idx * (mid - lb + 1)
        else if j = 2*idx+1 then s.tr (2*idx+1) + s.tg idx * (rb - mid)
        else s.tr j,
       fun j => if j = idx then 0
        else if j = 2*idx then s.tg (2*idx) + s.tg idx
        else if j = 2*idx+1 then s.tg (2*idx+1) + s.tg idx
        else s.tg j⟩ := by
  rw [pushDown, if_pos hg]
  ext j
  · show upd _ _ _ j = _
    simp only [upd]
    split_ifs <;> first | rfl | omega
  · show upd _ _ _ j = _
    simp only [upd]
    split_ifs <;> first | rfl | omega

theorem pushDown_tr_idx {idx : Nat} {lb mid rb : Int} {s : Store} (hidx : 1 ≤ idx) :
    (pushDown idx lb mid rb s).tr idx = s.tr idx := by
  by_cases hg : s.tg idx ≠ 0 ∧ lb ≠ rb
  · rw [pushDown_eq idx hidx lb mid rb s hg]
    simp only []
    split_ifs <;> first | rfl | omega
  · rw [pushDown_of_neg idx lb mid rb s hg]

theorem pushDown_tg_idx {idx : Nat} {lb mid rb : Int} {s : Store} (hidx : 1 ≤ idx)
    (hne : lb ≠ rb) : (pushDown idx lb mid rb s).tg idx = 0 := by
  by_cases hg : s.tg idx ≠ 0 ∧ lb ≠ rb
  · rw [pushDown_eq idx hidx lb mid rb s hg]
    simp only []
    split_ifs <;> first | rfl | omega
  · rw [pushDown_of_neg idx lb mid rb s hg]
    by_cases h0 : s.tg idx = 0
    · exact h0
    · exact absurd ⟨h0, hne⟩ hg

theorem pushDown_frame {idx : Nat} {lb mid rb : Int} {s : Store} {j : Nat}
    (hidx : 1 ≤ idx) (h0 : j ≠ idx) (h1 : j ≠ 2*idx) (h2 : j ≠ 2*idx+1) :
    (pushDown idx lb mid rb s).tr j = s.tr j ∧ (pushDown idx lb mid rb s).tg j = s.tg j := by
  by_cases hg : s.tg idx ≠ 0 ∧ lb ≠ rb
  · rw [pushDown_eq idx hidx lb mid rb s hg]
    constructor
    · simp only []
      split_ifs <;> first | rfl | omega
    · simp only []
      split_ifs <;> first | rfl | omega
  · rw [pushDown_of_neg idx lb mid rb s hg]
    exact ⟨rfl, rfl⟩

/-- Raising the root tag of a subtree by c (and its aggregate by c when the
root is a leaf) raises every represented point value by c. -/
theorem valAt_bump (s1 s2 : Store) (c : Int) (idx : Nat) (hidx : 1 ≤ idx) (lb rb : Int)
    (htr : ¬ lb < rb → s2.tr idx = s1.tr idx + c)
    (htg : lb < rb → s2.tg idx = s1.tg idx + c)
    (hrest : ∀ j l2 r2, Desc idx lb rb j l2 r2 → j ≠ idx →
      s2.tr j = s1.tr j ∧ (l2 < r2 → s2.tg j = s1.tg j))
    (p : Int) : valAt s2 idx lb rb p = valAt s1 idx lb rb p + c := by
  by_cases hlt : lb < rb
  · rw [valAt_node _ _ hlt, valAt_node _ _ hlt, htg hlt]
    have hL : valAt s2 (2*idx) lb (lb + (rb - lb) / 2) p
        = valAt s1 (2*idx) lb (lb + (rb - lb) / 2) p :=
      valAt_congr s2 s1 _ (2*idx) lb (lb + (rb - lb) / 2) le_rfl
        (fun j l2 r2 hd =>
          hrest j l2 r2 ((desc_left_root hlt).trans hd) (desc_left_ne hidx hd)) p
    have hR : valAt s2 (2*idx+1) (lb + (rb - lb) / 2 + 1) rb p
        = valAt s1 (2*idx+1) (lb + (rb - lb) / 2 + 1) rb p :=
      valAt_congr s2 s1 _ (2*idx+1) (lb + (rb - lb) / 2 + 1) rb le_rfl
        (fun j l2 r2 hd =>
          hrest j l2 r2 ((desc_right_root hlt).trans hd) (desc_right_ne hidx hd)) p
    by_cases hp : p ≤ lb + (rb - lb) / 2
    · rw [if_pos hp, if_pos hp, hL]
      ring
    · rw [if_neg hp, if_neg hp, hR]
      ring
  · rw [valAt_leaf _ _ hlt, valAt_leaf _ _ hlt]
    exact htr hlt

/-- Raising the root tag of a subtree by c and the root aggregate by
c times the range size preserves aggregate coherence. -/
theorem AggOK_bump (s1 s2 : Store) (c : Int) (idx : Nat) (hidx : 1 ≤ idx) (lb rb : Int)
    (htr : s2.tr idx = s1.tr idx + c * (rb - lb + 1))
    (htg : lb < rb → s2.tg idx = s1.tg idx + c)
    (hrest : ∀ j l2 r2, Desc idx lb rb j l2 r2 → j ≠ idx →
      s2.tr j = s1.tr j ∧ (l2 < r2 → s2.tg j = s1.tg j))
    (hok : AggOK s1 idx lb rb) : AggOK s2 idx lb rb := by
  by_cases hlt : lb < rb
  · rw [AggOK_node _ _ hlt] at hok ⊢
    obtain ⟨hloc, hokL, hokR⟩ := hok
    have htrL := (hrest (2*idx) lb (lb + (rb - lb) / 2) (desc_left_root hlt) (by omega)).1
    have htrR := (hrest (2*idx+1) (lb + (rb - lb) / 2 + 1) rb (desc_right_root hlt) (by omega)).1
    refine ⟨?_, ?_, ?_⟩
    · rw [htr, hloc, htg hlt, htrL, htrR]
      ring
    · exact (AggOK_congr s1 s2 _ (2*idx) lb (lb + (rb - lb) / 2) le_rfl
        (fun j l2 r2 hd =>
          ((hrest j l2 r2 ((desc_left_root hlt).trans hd) (desc_left_ne hidx hd)).imp
            Eq.symm (fun h hl => (h hl).symm)))).mp hokL
    · exact (AggOK_congr s1 s2 _ (2*idx+1) (lb + (rb - lb) / 2 + 1) rb le_rfl
        (fun j l2 r2 hd =>
          ((hrest j l2 r2 ((desc_right_root hlt).trans hd) (desc_right_ne hidx hd)).imp
            Eq.symm (fun h hl => (h hl).symm)))).mp hokR
  · exact AggOK_leaf _ _ hlt

theorem pushDown_tr_left {idx : Nat} {lb mid rb : Int} {s : Store} (hidx : 1 ≤ idx)
    (hg : s.tg idx ≠ 0 ∧ lb ≠ rb) :
    (pushDown idx lb mid rb s).tr (2*idx) = s.tr (2*idx) + s.tg idx * (mid - lb + 1) := by
  rw [pushDown_eq idx hidx lb mid rb s hg]
  simp

theorem pushDown_tr_right {idx : Nat} {lb mid rb : Int} {s : Store} (hidx : 1 ≤ idx)
    (hg : s.tg idx ≠ 0 ∧ lb ≠ rb) :
    (pushDown idx lb mid rb s).tr (2*idx+1) = s.tr (2*idx+1) + s.tg idx * (rb - mid) := by
  rw [pushDown_eq idx hidx lb mid rb s hg]
  have h2 : ¬ (2*idx+1 = 2*idx) := by omega
  simp [h2]

theorem pushDown_tg_left {idx : Nat} {lb mid rb : Int} {s : Store} (hidx : 1 ≤ idx)
    (hg : s.tg idx ≠ 0 ∧ lb ≠ rb) :
    (pushDown idx lb mid rb s).tg (2*idx) = s.tg (2*idx) + s.tg idx := by
  rw [pushDown_eq idx hidx lb mid rb s hg]
  have h1 : ¬ (2*idx = idx) := by omega
  simp [h1]

theorem pushDown_tg_right {idx : Nat} {lb mid rb : Int} {s : Store} (hidx : 1 ≤ idx)
    (hg : s.tg idx ≠ 0 ∧ lb ≠ rb) :
    (pushDown idx lb mid rb s).tg (2*idx+1) = s.tg (2*idx+1) + s.tg idx := by
  rw [pushDown_eq idx hidx lb mid rb s hg]
  have h1 : ¬ (2*idx+1 = idx) := by omega
  have h2 : ¬ (2*idx+1 = 2*idx) := by omega
  simp [h1, h2]

/-- Pushing the pending tag down one level does not change any represented
point value. -/
theorem pushDown_valAt {idx : Nat} {lb rb : Int} (hidx : 1 ≤ idx) (hlt : lb < rb)
    (s : Store) (p : Int) :
    valAt (pushDown idx lb (lb + (rb - lb) / 2) rb s) idx lb rb p
      = valAt s idx lb rb p := by
  by_cases hg : s.tg idx ≠ 0 ∧ lb ≠ rb
  · have hmidge : lb ≤ lb + (rb - lb) / 2 := by omega
    have hmidlt : lb + (rb - lb) / 2 < rb := by omega
    have htg0 : (pushDown idx lb (lb + (rb - lb) / 2) rb s).tg idx = 0 :=
      pushDown_tg_idx hidx (by omega)
    rw [valAt_node _ _ hlt, valAt_node _ _ hlt, htg0]
    have hL : valAt (pushDown idx lb (lb + (rb - lb) / 2) rb s) (2*idx) lb (lb + (rb - lb) / 2) p
        = valAt s (2*idx) lb (lb + (rb - lb) / 2) p + s.tg idx := by
      apply valAt_bump s _ (s.tg idx) (2*idx) (by omega) lb (lb + (rb - lb) / 2)
      · intro hl2
        rw [pushDown_tr_left hidx hg]
        have h1 : lb + (rb - lb) / 2 - lb + 1 = 1 := by omega
        rw [h1]
        ring
      · intro _
        exact pushDown_tg_left hidx hg
      · intro j l2 r2 hd hne
        have hne2 : j ≠ idx := desc_left_ne hidx hd
        have hne3 : j ≠ 2*idx+1 := fun hjeq =>
          descIdx_sibling_disjoint hidx hd.toIdx (hjeq ▸ ⟨0, by simp⟩)
        exact (pushDown_frame hidx hne2 hne hne3).imp id (fun h _ => h)
    have hR : valAt (pushDown idx lb (lb + (rb - lb) / 2) rb s) (2*idx+1)
          (lb + (rb - lb) / 2 + 1) rb p
        = valAt s (2*idx+1) (lb + (rb - lb) / 2 + 1) rb p + s.tg idx := by
      apply valAt_bump s _ (s.tg idx) (2*idx+1) (by omega) (lb + (rb - lb) / 2 + 1) rb
      · intro hl2
        rw [pushDown_tr_right hidx hg]
        have h1 : rb - (lb + (rb - lb) / 2) = 1 := by omega
        rw [h1]
        ring
      · intro _
        exact pushDown_tg_right hidx hg
      · intro j l2 r2 hd hne
        have hne2 : j ≠ idx := desc_right_ne hidx hd
        have hne3 : j ≠ 2*idx := fun hjeq =>
          descIdx_sibling_disjoint hidx (hjeq ▸ ⟨0, by simp⟩) hd.toIdx
        exact (pushDown_frame hidx hne2 hne3 hne).imp id (fun h _ => h)
    by_cases hp : p ≤ lb + (rb - lb) / 2
    · rw [if_pos hp, if_pos hp, hL]
      ring
    · rw [if_neg hp, if_neg hp, hR]
      ring
  · rw [pushDown_of_neg idx lb _ rb s hg]

/-- Pushing the pending tag down one level preserves aggregate coherence. -/
theorem pushDown_AggOK {idx : Nat} {lb rb : Int} (hidx : 1 ≤ idx) (hlt : lb < rb)
    (s : Store) (hok : AggOK s idx lb rb) :
    AggOK (pushDown idx lb (lb + (rb - lb) / 2) rb s) idx lb rb := by
  by_cases hg : s.tg idx ≠ 0 ∧ lb ≠ rb
  · have hmidge : lb ≤ lb + (rb - lb) / 2 := by omega
    have hmidlt : lb + (rb - lb) / 2 < rb := by omega
    rw [AggOK_node _ _ hlt] at hok ⊢
    obtain ⟨hloc, hokL, hokR⟩ := hok
    refine ⟨?_, ?_, ?_⟩
    · rw [pushDown_tr_idx hidx, pushDown_tg_idx hidx (by omega),
        pushDown_tr_left hidx hg, pushDown_tr_right hidx hg, hloc]
      ring
    · apply AggOK_bump s _ (s.tg idx) (2*idx) (by omega) lb (lb + (rb - lb) / 2)
      · rw [pushDown_tr_left hidx hg]
      · intro _
        exact pushDown_tg_left hidx hg
      · intro j l2 r2 hd hne
        have hne2 : j ≠ idx := desc_left_ne hidx hd
        have hne3 : j ≠ 2*idx+1 := fun hjeq =>
          descIdx_sibling_disjoint hidx hd.toIdx (hjeq ▸ ⟨0, by simp⟩)
        exact (pushDown_frame hidx hne2 hne hne3).imp id (fun h _ => h)
      · exact hokL
    · apply AggOK_bump s _ (s.tg idx) (2*idx+1) (by omega) (lb + (rb - lb) / 2 + 1) rb
      · rw [pushDown_tr_right hidx hg]
        ring
      · intro _
        exact pushDown_tg_right hidx hg
      · intro j l2 r2 hd hne
        have hne2 : j ≠ idx := desc_right_ne hidx hd
        have hne3 : j ≠ 2*idx := fun hjeq =>
          descIdx_sibling_disjoint hidx (hjeq ▸ ⟨0, by simp⟩) hd.toIdx
        exact (pushDown_frame hidx hne2 hne3 hne).imp id (fun h _ => h)
      · exact hokR
  · rw [pushDown_of_neg idx lb _ rb s hg]
    exact hok

/-! Finite sums over integer intervals, and the meaning of aggregates. -/

theorem Icc_sum_split (a b c : Int) (h1 : a ≤ b + 1) (h2 : b ≤ c) (f : Int → Int) :
    (∑ p ∈ Finset.Icc a c, f p)
      = (∑ p ∈ Finset.Icc a b, f p) + ∑ p ∈ Finset.Icc (b+1) c, f p := by
  have hu : Finset.Icc a c = Finset.Icc a b ∪ Finset.Icc (b+1) c := by
    ext x
    simp only [Finset.mem_Icc, Finset.mem_union]
    omega
  have hd : Disjoint (Finset.Icc a b) (Finset.Icc (b+1) c) := by
    rw [Finset.disjoint_left]
    intro x hx1 hx2
    simp only [Finset.mem_Icc] at hx1 hx2
    omega
  rw [hu, Finset.sum_union hd]

/-- Under aggregate coherence, a node aggregate is exactly the sum of the
point values its subtree represents: this is the meaning of invariant 1 of
spec section 3 relative to the subtree-local value function. -/
theorem AggOK_sum (s : Store) :
    ∀ (n idx : Nat) (lb rb : Int), (rb - lb).toNat ≤ n → lb ≤ rb →
      AggOK s idx lb rb →
      s.tr idx = ∑ p ∈ Finset.Icc lb rb, valAt s idx lb rb p := by
  intro n
  induction n with
  | zero =>
    intro idx lb rb hn hle _
    have hlt : ¬ lb < rb := by omega
    have heq : lb = rb := by omega
    subst heq
    rw [Finset.Icc_self, Finset.sum_singleton, valAt_leaf _ _ hlt]
  | succ n ih =>
    intro idx lb rb hn hle hok
    by_cases hlt : lb < rb
    · rw [AggOK_node _ _ hlt] at hok
      obtain ⟨hloc, hokL, hokR⟩ := hok
      have hIL := ih (2*idx) lb (lb + (rb - lb) / 2) (by omega) (by omega) hokL
      have hIR := ih (2*idx+1) (lb + (rb - lb) / 2 + 1) rb (by omega) (by omega) hokR
      rw [Icc_sum_split lb (lb + (rb - lb) / 2) rb (by omega) (by omega)]
      have h1 : ∑ p ∈ Finset.Icc lb (lb + (rb - lb) / 2), valAt s idx lb rb p
          = ∑ p ∈ Finset.Icc lb (lb + (rb - lb) / 2),
              (s.tg idx + valAt s (2*idx) lb (lb + (rb - lb) / 2) p) := by
        apply Finset.sum_congr rfl
        intro p hp
        rw [Finset.mem_Icc] at hp
        rw [valAt_node _ _ hlt, if_pos hp.2]
      have h2 : ∑ p ∈ Finset.Icc (lb + (rb - lb) / 2 + 1) rb, valAt s idx lb rb p
          = ∑ p ∈ Finset.Icc (lb + (rb - lb) / 2 + 1) rb,
              (s.tg idx + valAt s (2*idx+1) (lb + (rb - lb) / 2 + 1) rb p) := by
        apply Finset.sum_congr rfl
        intro p hp
        rw [Finset.mem_Icc] at hp
        have hgt : ¬ p ≤ lb + (rb - lb) / 2 := by omega
        rw [valAt_node _ _ hlt, if_neg hgt]
      rw [h1, h2, Finset.sum_add_distrib, Finset.sum_add_distrib,
        Finset.sum_const, Finset.sum_const, ← hIL, ← hIR,
        Int.card_Icc, Int.card_Icc, nsmul_eq_mul, nsmul_eq_mul]
      have c1 : ((lb + (rb - lb) / 2 + 1 - lb).toNat : Int) = (rb - lb) / 2 + 1 := by omega
      have c2 : ((rb + 1 - (lb + (rb - lb) / 2 + 1)).toNat : Int)
          = rb - lb - (rb - lb) / 2 := by omega
      rw [c1, c2, hloc]
      ring
    · have heq : lb = rb := by omega
      subst heq
      rw [Finset.Icc_self, Finset.sum_singleton, valAt_leaf _ _ hlt]

theorem desc_sib_LR {idx j : Nat} {a b l2 r2 c d l3 r3 : Int} (hidx : 1 ≤ idx)
    (h1 : Desc (2*idx) a b j l2 r2) (h2 : Desc (2*idx+1) c d j l3 r3) : False :=
  descIdx_sibling_disjoint hidx h1.toIdx h2.toIdx

/-- Full specification of _add on a subtree: it writes only inside the
subtree; it raises exactly the represented values of the points in
[left, right]; and it preserves aggregate coherence.  The fuel hypothesis
is satisfied by the top-level wrapper. -/
theorem addAux_spec :
    ∀ (fuel : Nat) (value : Int) (idx : Nat) (left right lb rb : Int) (s : Store),
      1 ≤ idx → lb ≤ rb → left ≤ right → left ≤ rb → lb ≤ right →
      (rb - lb).toNat < fuel →
      ((∀ j, (∀ l2 r2, ¬ Desc idx lb rb j l2 r2) →
        (addAux fuel value idx left right lb rb s).tr j = s.tr j
        ∧ (addAux fuel value idx left right lb rb s).tg j = s.tg j)
      ∧ (∀ p, lb ≤ p → p ≤ rb →
          valAt (addAux fuel value idx left right lb rb s) idx lb rb p
            = valAt s idx lb rb p + (if left ≤ p ∧ p ≤ right then value else 0))
      ∧ (AggOK s idx lb rb → AggOK (addAux fuel value idx left right lb rb s) idx lb rb)) := by
  intro fuel
  induction fuel with
  | zero =>
    intro value idx left right lb rb s _ _ _ _ _ hfuel
    omega
  | succ n ih =>
    intro value idx left right lb rb s hidx hlbrb hlr hlrb hlbr hfuel
    by_cases hcov : left ≤ lb ∧ rb ≤ right
    · have hunf : addAux (n+1) value idx left right lb rb s
          = ⟨upd s.tr idx (s.tr idx + value * (rb - lb + 1)),
             upd s.tg idx (s.tg idx + value)⟩ := by
        rw [addAux, if_pos hcov]
      rw [hunf]
      refine ⟨?_, ?_, ?_⟩
      · intro j hj
        have hne : j ≠ idx := fun h => hj lb rb (h ▸ Desc.refl idx lb rb)
        exact ⟨upd_ne _ _ hne, upd_ne _ _ hne⟩
      · intro p hp1 hp2
        rw [if_pos ⟨by omega, by omega⟩]
        apply valAt_bump s _ value idx hidx lb rb
        · intro hl2
          show upd s.tr idx (s.tr idx + value * (rb - lb + 1)) idx = s.tr idx + value
          rw [upd_self]
          have h1 : rb - lb + 1 = 1 := by omega
          rw [h1, mul_one]
        · intro _
          exact upd_self _ _ _
        · intro j l2 r2 _ hne
          exact ⟨upd_ne _ _ hne, fun _ => upd_ne _ _ hne⟩
      · intro hok
        apply AggOK_bump s _ value idx hidx lb rb
        · exact upd_self _ _ _
        · intro _
          exact upd_self _ _ _
        · intro j l2 r2 _ hne
          exact ⟨upd_ne _ _ hne, fun _ => upd_ne _ _ hne⟩
        · exact hok
    · have hlt : lb < rb := by omega
      have hmge : lb ≤ lb + (rb - lb) / 2 := by omega
      have hmlt : lb + (rb - lb) / 2 < rb := by omega
      set s1 : Store := pushDown idx lb (lb + (rb - lb) / 2) rb s with hs1
      set s2 : Store := (if left ≤ lb + (rb - lb) / 2
        then addAux n value (2*idx) left right lb (lb + (rb - lb) / 2) s1 else s1) with hs2
      set s3 : Store := (if right ≥ lb + (rb - lb) / 2 + 1
        then addAux n value (2*idx+1) left right (lb + (rb - lb) / 2 + 1) rb s2 else s2)
        with hs3
      have hunf : addAux (n+1) value idx left right lb rb s
          = ⟨upd s3.tr idx (s3.tr (2*idx) + s3.tr (2*idx+1)), s3.tg⟩ := by
        rw [addAux, if_neg hcov]
      have hframe2 : ∀ j, (∀ l2 r2, ¬ Desc (2*idx) lb (lb + (rb - lb) / 2) j l2 r2) →
          s2.tr j = s1.tr j ∧ s2.tg j = s1.tg j := by
        rw [hs2]
        by_cases hgl : left ≤ lb + (rb - lb) / 2
        · rw [if_pos hgl]
          intro j hj
          exact (ih value (2*idx) left right lb (lb + (rb - lb) / 2) s1
            (by omega) hmge hlr hgl hlbr (by omega)).1 j hj
        · rw [if_neg hgl]
          intro j _
          exact ⟨rfl, rfl⟩
      have hval2 : ∀ p, lb ≤ p → p ≤ lb + (rb - lb) / 2 →
          valAt s2 (2*idx) lb (lb + (rb - lb) / 2) p
            = valAt s1 (2*idx) lb (lb + (rb - lb) / 2) p
              + (if left ≤ p ∧ p ≤ right then value else 0) := by
        rw [hs2]
        by_cases hgl : left ≤ lb + (rb - lb) / 2
        · rw [if_pos hgl]
          intro p hp1 hp2
          exact (ih value (2*idx) left right lb (lb + (rb - lb) / 2) s1
            (by omega) hmge hlr hgl hlbr (by omega)).2.1 p hp1 hp2
        · rw [if_neg hgl]
          intro p hp1 hp2
          rw [if_neg (by omega : ¬ (left ≤ p ∧ p ≤ right))]
          ring
      have hok2 : AggOK s1 (2*idx) lb (lb + (rb - lb) / 2) →
          AggOK s2 (2*idx) lb (lb + (rb - lb) / 2) := by
        rw [hs2]
        by_cases hgl : left ≤ lb + (rb - lb) / 2
        · rw [if_pos hgl]
          exact (ih value (2*idx) left right lb (lb + (rb - lb) / 2) s1
            (by omega) hmge hlr hgl hlbr (by omega)).2.2
        · rw [if_neg hgl]
          exact id
      have hframe3 : ∀ j, (∀ l2 r2, ¬ Desc (2*idx+1) (lb + (rb - lb) / 2 + 1) rb j l2 r2) →
          s3.tr j = s2.tr j ∧ s3.tg j = s2.tg j := by
        rw [hs3]
        by_cases hgr : right ≥ lb + (rb - lb) / 2 + 1
        · rw [if_pos hgr]
          intro j hj
          exact (ih value (2*idx+1) left right (lb + (rb - lb) / 2 + 1) rb s2
            (by omega) (by omega) hlr hlrb hgr (by omega)).1 j hj
        · rw [if_neg hgr]
          intro j _
          exact ⟨rfl, rfl⟩
      have hval3 : ∀ p, lb + (rb - lb) / 2 + 1 ≤ p → p ≤ rb →
          valAt s3 (2*idx+1) (lb + (rb - lb) / 2 + 1) rb p
            = valAt s2 (2*idx+1) (lb + (rb - lb) / 2 + 1) rb p
              + (if left ≤ p ∧ p ≤ right then value else 0) := by
        rw [hs3]
        by_cases hgr : right ≥ lb + (rb - lb) / 2 + 1
        · rw [if_pos hgr]
          intro p hp1 hp2
          exact (ih value (2*idx+1) left right (lb + (rb - lb) / 2 + 1) rb s2
            (by omega) (by omega) hlr hlrb hgr (by omega)).2.1 p hp1 hp2
        · rw [if_neg hgr]
          intro p hp1 hp2
          rw [if_neg (by omega : ¬ (left ≤ p ∧ p ≤ right))]
          ring
      have hok3 : AggOK s2 (2*idx+1) (lb + (rb - lb) / 2 + 1) rb →
          AggOK s3 (2*idx+1) (lb + (rb - lb) / 2 + 1) rb := by
        rw [hs3]
        by_cases hgr : right ≥ lb + (rb - lb) / 2 + 1
        · rw [if_pos hgr]
          exact (ih value (2*idx+1) left right (lb + (rb - lb) / 2 + 1) rb s2
            (by omega) (by omega) hlr hlrb hgr (by omega)).2.2
        · rw [if_neg hgr]
          exact id
      have htg_s1 : s1.tg idx = 0 := by
        rw [hs1]
        exact pushDown_tg_idx hidx (by omega)
      have htg_s2 : s2.tg idx = s1.tg idx :=
        (hframe2 idx (fun l2 r2 hd => absurd rfl (desc_left_ne hidx hd))).2
      have htg_s3 : s3.tg idx = s2.tg idx :=
        (hframe3 idx (fun l2 r2 hd => absurd rfl (desc_right_ne hidx hd))).2
      have hcongr32L : ∀ p, valAt s3 (2*idx) lb (lb + (rb - lb) / 2) p
          = valAt s2 (2*idx) lb (lb + (rb - lb) / 2) p :=
        valAt_congr s3 s2 _ (2*idx) lb (lb + (rb - lb) / 2) le_rfl
          (fun j l2 r2 hd =>
            (hframe3 j (fun l3 r3 hd2 => desc_sib_LR hidx hd hd2)).imp id (fun h _ => h))
      have hcongr21R : ∀ p, valAt s2 (2*idx+1) (lb + (rb - lb) / 2 + 1) rb p
          = valAt s1 (2*idx+1) (lb + (rb - lb) / 2 + 1) rb p :=
        valAt_congr s2 s1 _ (2*idx+1) (lb + (rb - lb) / 2 + 1) rb le_rfl
          (fun j l2 r2 hd =>
            (hframe2 j (fun l3 r3 hd2 => desc_sib_LR hidx hd2 hd)).imp id (fun h _ => h))
      refine ⟨?_, ?_, ?_⟩
      · intro j hj
        have hjidx : j ≠ idx := fun h => hj lb rb (h ▸ Desc.refl idx lb rb)
        have hjL : ∀ l2 r2, ¬ Desc (2*idx) lb (lb + (rb - lb) / 2) j l2 r2 :=
          fun l2 r2 hd => hj l2 r2 ((desc_left_root hlt).trans hd)
        have hjR : ∀ l2 r2, ¬ Desc (2*idx+1) (lb + (rb - lb) / 2 + 1) rb j l2 r2 :=
          fun l2 r2 hd => hj l2 r2 ((desc_right_root hlt).trans hd)
        have h2 := hframe2 j hjL
        have h3 := hframe3 j hjR
        have h1 : s1.tr j = s.tr j ∧ s1.tg j = s.tg j := by
          rw [hs1]
          apply pushDown_frame hidx hjidx
          · intro hjeq
            exact hjL lb (lb + (rb - lb) / 2) (hjeq ▸ Desc.refl _ _ _)
          · intro hjeq
            exact hjR (lb + (rb - lb) / 2 + 1) rb (hjeq ▸ Desc.refl _ _ _)
        rw [hunf]
        constructor
        · show upd s3.tr idx (s3.tr (2*idx) + s3.tr (2*idx+1)) j = s.tr j
          rw [upd_ne _ _ hjidx, h3.1, h2.1, h1.1]
        · show s3.tg j = s.tg j
          rw [h3.2, h2.2, h1.2]
      · intro p hp1 hp2
        rw [hunf]
        have hfl : ∀ q, valAt (⟨upd s3.tr idx (s3.tr (2*idx) + s3.tr (2*idx+1)), s3.tg⟩ : Store)
            (2*idx) lb (lb + (rb - lb) / 2) q = valAt s3 (2*idx) lb (lb + (rb - lb) / 2) q :=
          valAt_congr _ s3 _ (2*idx) lb (lb + (rb - lb) / 2) le_rfl
            (fun j l2 r2 hd => ⟨upd_ne _ _ (desc_left_ne hidx hd), fun _ => rfl⟩)
        have hfr : ∀ q, valAt (⟨upd s3.tr idx (s3.tr (2*idx) + s3.tr (2*idx+1)), s3.tg⟩ : Store)
            (2*idx+1) (lb + (rb - lb) / 2 + 1) rb q
            = valAt s3 (2*idx+1) (lb + (rb - lb) / 2 + 1) rb q :=
          valAt_congr _ s3 _ (2*idx+1) (lb + (rb - lb) / 2 + 1) rb le_rfl
            (fun j l2 r2 hd => ⟨upd_ne _ _ (desc_right_ne hidx hd), fun _ => rfl⟩)
        have hps : valAt s idx lb rb p = valAt s1 idx lb rb p := by
          rw [hs1]
          exact (pushDown_valAt hidx hlt s p).symm
        rw [hps, valAt_node _ _ hlt, valAt_node s1 _ hlt, htg_s1]
        by_cases hp : p ≤ lb + (rb - lb) / 2
        · rw [if_pos hp, if_pos hp, hfl p, hcongr32L p, hval2 p hp1 hp]
          show s3.tg idx + _ = _
          rw [htg_s3, htg_s2, htg_s1]
          ring
        · rw [if_neg hp, if_neg hp, hfr p, hval3 p (by omega) hp2, hcongr21R p]
          show s3.tg idx + _ = _
          rw [htg_s3, htg_s2, htg_s1]
          ring
      · intro hok
        have hok1 : AggOK s1 idx lb rb := by
          rw [hs1]
          exact pushDown_AggOK hidx hlt s hok
        rw [AggOK_node _ _ hlt] at hok1
        obtain ⟨hloc1, hok1L, hok1R⟩ := hok1
        have hok2L : AggOK s2 (2*idx) lb (lb + (rb - lb) / 2) := hok2 hok1L
        have hok2R : AggOK s2 (2*idx+1) (lb + (rb - lb) / 2 + 1) rb :=
          (AggOK_congr s1 s2 _ (2*idx+1) (lb + (rb - lb) / 2 + 1) rb le_rfl
            (fun j l2 r2 hd =>
              (hframe2 j (fun l3 r3 hd2 => desc_sib_LR hidx hd2 hd)).imp
                Eq.symm (fun h _ => h.symm))).mp hok1R
        have hok3R : AggOK s3 (2*idx+1) (lb + (rb - lb) / 2 + 1) rb := hok3 hok2R
        have hok3L : AggOK s3 (2*idx) lb (lb + (rb - lb) / 2) :=
          (AggOK_congr s2 s3 _ (2*idx) lb (lb + (rb - lb) / 2) le_rfl
            (fun j l2 r2 hd =>
              (hframe3 j (fun l3 r3 hd2 => desc_sib_LR hidx hd hd2)).imp
                Eq.symm (fun h _ => h.symm))).mp hok2L
        rw [hunf, AggOK_node _ _ hlt]
        refine ⟨?_, ?_, ?_⟩
        · show upd s3.tr idx (s3.tr (2*idx) + s3.tr (2*idx+1)) idx
            = upd s3.tr idx (s3.tr (2*idx) + s3.tr (2*idx+1)) (2*idx)
              + upd s3.tr idx (s3.tr (2*idx) + s3.tr (2*idx+1)) (2*idx+1)
              + s3.tg idx * (rb - lb + 1)
          rw [upd_self, upd_ne _ _ (by omega : (2*idx : Nat) ≠ idx),
            upd_ne _ _ (by omega : (2*idx+1 : Nat) ≠ idx), htg_s3, htg_s2, htg_s1]
          ring
        · exact (AggOK_congr s3
            (⟨upd s3.tr idx (s3.tr (2*idx) + s3.tr (2*idx+1)), s3.tg⟩ : Store)
            _ (2*idx) lb (lb + (rb - lb) / 2) le_rfl
            (fun j l2 r2 hd =>
              ⟨(upd_ne _ _ (desc_left_ne hidx hd)).symm, fun _ => rfl⟩)).mp hok3L
        · exact (AggOK_congr s3
            (⟨upd s3.tr idx (s3.tr (2*idx) + s3.tr (2*idx+1)), s3.tg⟩ : Store)
            _ (2*idx+1) (lb + (rb - lb) / 2 + 1) rb le_rfl
            (fun j l2 r2 hd =>
              ⟨(upd_ne _ _ (desc_right_ne hidx hd)).symm, fun _ => rfl⟩)).mp hok3R

/-- Full specification of _get_sum on a subtree: it writes only inside the
subtree and never changes the aggregate of the subtree root; it preserves
every represented point value and aggregate coherence; and under aggregate
coherence it returns the sum of the represented values over the
intersection of the query range with the node range. -/
theorem getSumAux_spec :
    ∀ (fuel idx : Nat) (left right lb rb : Int) (s : Store),
      1 ≤ idx → lb ≤ rb → left ≤ right → left ≤ rb → lb ≤ right →
      (rb - lb).toNat < fuel →
      ((∀ j, (∀ l2 r2, ¬ Desc idx lb rb j l2 r2) →
        (getSumAux fuel idx left right lb rb s).2.tr j = s.tr j
        ∧ (getSumAux fuel idx left right lb rb s).2.tg j = s.tg j)
      ∧ (getSumAux fuel idx left right lb rb s).2.tr idx = s.tr idx
      ∧ (∀ p, lb ≤ p → p ≤ rb →
          valAt (getSumAux fuel idx left right lb rb s).2 idx lb rb p = valAt s idx lb rb p)
      ∧ (AggOK s idx lb rb → AggOK (getSumAux fuel idx left right lb rb s).2 idx lb rb)
      ∧ (AggOK s idx lb rb →
          (getSumAux fuel idx left right lb rb s).1
            = ∑ p ∈ Finset.Icc (max left lb) (min right rb), valAt s idx lb rb p)) := by
  intro fuel
  induction fuel with
  | zero =>
    intro idx left right lb rb s _ _ _ _ _ hfuel
    omega
  | succ n ih =>
    intro idx left right lb rb s hidx hlbrb hlr hlrb hlbr hfuel
    by_cases hcov : left ≤ lb ∧ rb ≤ right
    · have hunf : getSumAux (n+1) idx left right lb rb s = (s.tr idx, s) := by
        rw [getSumAux, if_pos hcov]
      rw [hunf]
      refine ⟨fun j _ => ⟨rfl, rfl⟩, rfl, fun p _ _ => rfl, id, ?_⟩
      intro hok
      rw [max_eq_right hcov.1, min_eq_right hcov.2]
      exact AggOK_sum s _ idx lb rb le_rfl hlbrb hok
    · have hlt : lb < rb := by omega
      have hmge : lb ≤ lb + (rb - lb) / 2 := by omega
      have hmlt : lb + (rb - lb) / 2 < rb := by omega
      set s1 : Store := pushDown idx lb (lb + (rb - lb) / 2) rb s with hs1
      set q2 : Int × Store := (if left ≤ lb + (rb - lb) / 2
        then getSumAux n (2*idx) left right lb (lb + (rb - lb) / 2) s1 else (0, s1)) with hq2
      set q3 : Int × Store := (if right ≥ lb + (rb - lb) / 2 + 1
        then getSumAux n (2*idx+1) left right (lb + (rb - lb) / 2 + 1) rb q2.2 else (0, q2.2))
        with hq3
      have hunf : getSumAux (n+1) idx left right lb rb s = (q2.1 + q3.1, q3.2) := by
        rw [getSumAux, if_neg hcov]
      have ihL := ih (2*idx) left right lb (lb + (rb - lb) / 2) s1
        (by omega) hmge hlr
      have ihR := ih (2*idx+1) left right (lb + (rb - lb) / 2 + 1) rb q2.2
        (by omega) (by omega) hlr hlrb
      have hframe2 : ∀ j, (∀ l2 r2, ¬ Desc (2*idx) lb (lb + (rb - lb) / 2) j l2 r2) →
          q2.2.tr j = s1.tr j ∧ q2.2.tg j = s1.tg j := by
        rw [hq2]
        by_cases hgl : left ≤ lb + (rb - lb) / 2
        · rw [if_pos hgl]
          exact (ihL hgl hlbr (by omega)).1
        · rw [if_neg hgl]
          exact fun j _ => ⟨rfl, rfl⟩
      have hroot2 : q2.2.tr (2*idx) = s1.tr (2*idx) := by
        rw [hq2]
        by_cases hgl : left ≤ lb + (rb - lb) / 2
        · rw [if_pos hgl]
          exact (ihL hgl hlbr (by omega)).2.1
        · rw [if_neg hgl]
      have hval2 : ∀ p, lb ≤ p → p ≤ lb + (rb - lb) / 2 →
          valAt q2.2 (2*idx) lb (lb + (rb - lb) / 2) p
            = valAt s1 (2*idx) lb (lb + (rb - lb) / 2) p := by
        rw [hq2]
        by_cases hgl : left ≤ lb + (rb - lb) / 2
        · rw [if_pos hgl]
          exact (ihL hgl hlbr (by omega)).2.2.1
        · rw [if_neg hgl]
          exact fun p _ _ => rfl
      have hok2 : AggOK s1 (2*idx) lb (lb + (rb - lb) / 2) →
          AggOK q2.2 (2*idx) lb (lb + (rb - lb) / 2) := by
        rw [hq2]
        by_cases hgl : left ≤ lb + (rb - lb) / 2
        · rw [if_pos hgl]
          exact (ihL hgl hlbr (by omega)).2.2.2.1
        · rw [if_neg hgl]
          exact id
      have hframe3 : ∀ j, (∀ l2 r2, ¬ Desc (2*idx+1) (lb + (rb - lb) / 2 + 1) rb j l2 r2) →
          q3.2.tr j = q2.2.tr j ∧ q3.2.tg j = q2.2.tg j := by
        rw [hq3]
        by_cases hgr : right ≥ lb + (rb - lb) / 2 + 1
        · rw [if_pos hgr]
          exact (ihR hgr (by omega)).1
        · rw [if_neg hgr]
          exact fun j _ => ⟨rfl, rfl⟩
      have hroot3 : q3.2.tr (2*idx+1) = q2.2.tr (2*idx+1) := by
        rw [hq3]
        by_cases hgr : right ≥ lb + (rb - lb) / 2 + 1
        · rw [if_pos hgr]
          exact (ihR hgr (by omega)).2.1
        · rw [if_neg hgr]
      have hval3 : ∀ p, lb + (rb - lb) / 2 + 1 ≤ p → p ≤ rb →
          valAt q3.2 (2*idx+1) (lb + (rb - lb) / 2 + 1) rb p
            = valAt q2.2 (2*idx+1) (lb + (rb - lb) / 2 + 1) rb p := by
        rw [hq3]
        by_cases hgr : right ≥ lb + (rb - lb) / 2 + 1
        · rw [if_pos hgr]
          exact (ihR hgr (by omega)).2.2.1
        · rw [if_neg hgr]
          exact fun p _ _ => rfl
      have hok3 : AggOK q2.2 (2*idx+1) (lb + (rb - lb) / 2 + 1) rb →
          AggOK q3.2 (2*idx+1) (lb + (rb - lb) / 2 + 1) rb := by
        rw [hq3]
        by_cases hgr : right ≥ lb + (rb - lb) / 2 + 1
        · rw [if_pos hgr]
          exact (ihR hgr (by omega)).2.2.2.1
        · rw [if_neg hgr]
          exact id
      have htg_s1 : s1.tg idx = 0 := by
        rw [hs1]
        exact pushDown_tg_idx hidx (by omega)
      have htg_q2 : q2.2.tg idx = s1.tg idx :=
        (hframe2 idx (fun l2 r2 hd => absurd rfl (desc_left_ne hidx hd))).2
      have htg_q3 : q3.2.tg idx = q2.2.tg idx :=
        (hframe3 idx (fun l2 r2 hd => absurd rfl (desc_right_ne hidx hd))).2
      have htr_s1 : s1.tr idx = s.tr idx := by
        rw [hs1]
        exact pushDown_tr_idx hidx
      have htr_q2 : q2.2.tr idx = s1.tr idx :=
        (hframe2 idx (fun l2 r2 hd => absurd rfl (desc_left_ne hidx hd))).1
      have htr_q3 : q3.2.tr idx = q2.2.tr idx :=
        (hframe3 idx (fun l2 r2 hd => absurd rfl (desc_right_ne hidx hd))).1
      have hcongr32L : ∀ p, valAt q3.2 (2*idx) lb (lb + (rb - lb) / 2) p
          = valAt q2.2 (2*idx) lb (lb + (rb - lb) / 2) p :=
        valAt_congr q3.2 q2.2 _ (2*idx) lb (lb + (rb - lb) / 2) le_rfl
          (fun j l2 r2 hd =>
            (hframe3 j (fun l3 r3 hd2 => desc_sib_LR hidx hd hd2)).imp id (fun h _ => h))
      have hcongr21R : ∀ p, valAt q2.2 (2*idx+1) (lb + (rb - lb) / 2 + 1) rb p
          = valAt s1 (2*idx+1) (lb + (rb - lb) / 2 + 1) rb p :=
        valAt_congr q2.2 s1 _ (2*idx+1) (lb + (rb - lb) / 2 + 1) rb le_rfl
          (fun j l2 r2 hd =>
            (hframe2 j (fun l3 r3 hd2 => desc_sib_LR hidx hd2 hd)).imp id (fun h _ => h))
      have hfs : ∀ p, lb ≤ p → p ≤ rb → valAt s idx lb rb p
          = (if p ≤ lb + (rb - lb) / 2 then valAt s1 (2*idx) lb (lb + (rb - lb) / 2) p
             else valAt s1 (2*idx+1) (lb + (rb - lb) / 2 + 1) rb p) := by
        intro p hp1 hp2
        have h0 : valAt s idx lb rb p = valAt s1 idx lb rb p := by
          rw [hs1]
          exact (pushDown_valAt hidx hlt s p).symm
        rw [h0, valAt_node _ _ hlt, htg_s1]
        ring
      refine ⟨?_, ?_, ?_, ?_, ?_⟩
      · intro j hj
        have hjidx : j ≠ idx := fun h => hj lb rb (h ▸ Desc.refl idx lb rb)
        have hjL : ∀ l2 r2, ¬ Desc (2*idx) lb (lb + (rb - lb) / 2) j l2 r2 :=
          fun l2 r2 hd => hj l2 r2 ((desc_left_root hlt).trans hd)
        have hjR : ∀ l2 r2, ¬ Desc (2*idx+1) (lb + (rb - lb) / 2 + 1) rb j l2 r2 :=
          fun l2 r2 hd => hj l2 r2 ((desc_right_root hlt).trans hd)
        have h2 := hframe2 j hjL
        have h3 := hframe3 j hjR
        have h1 : s1.tr j = s.tr j ∧ s1.tg j = s.tg j := by
          rw [hs1]
          apply pushDown_frame hidx hjidx
          · intro hjeq
            exact hjL lb (lb + (rb - lb) / 2) (hjeq ▸ Desc.refl _ _ _)
          · intro hjeq
            exact hjR (lb + (rb - lb) / 2 + 1) rb (hjeq ▸ Desc.refl _ _ _)
        rw [hunf]
        exact ⟨by rw [show (q2.1 + q3.1, q3.2).2.tr j = q3.2.tr j from rfl, h3.1, h2.1, h1.1],
          by rw [show (q2.1 + q3.1, q3.2).2.tg j = q3.2.tg j from rfl, h3.2, h2.2, h1.2]⟩
      · rw [hunf]
        show q3.2.tr idx = s.tr idx
        rw [htr_q3, htr_q2, htr_s1]
      · intro p hp1 hp2
        rw [hunf]
        show valAt q3.2 idx lb rb p = valAt s idx lb rb p
        rw [valAt_node _ _ hlt, htg_q3, htg_q2, htg_s1, hfs p hp1 hp2]
        by_cases hp : p ≤ lb + (rb - lb) / 2
        · rw [if_pos hp, if_pos hp, hcongr32L p, hval2 p hp1 hp]
          ring
        · rw [if_neg hp, if_neg hp, hval3 p (by omega) hp2, hcongr21R p]
          ring
      · intro hok
        have hok1 : AggOK s1 idx lb rb := by
          rw [hs1]
          exact pushDown_AggOK hidx hlt s hok
        rw [AggOK_node _ _ hlt] at hok1
        obtain ⟨hloc1, hok1L, hok1R⟩ := hok1
        have hok2L : AggOK q2.2 (2*idx) lb (lb + (rb - lb) / 2) := hok2 hok1L
        have hok2R : AggOK q2.2 (2*idx+1) (lb + (rb - lb) / 2 + 1) rb :=
          (AggOK_congr s1 q2.2 _ (2*idx+1) (lb + (rb - lb) / 2 + 1) rb le_rfl
            (fun j l2 r2 hd =>
              (hframe2 j (fun l3 r3 hd2 => desc_sib_LR hidx hd2 hd)).imp
                Eq.symm (fun h _ => h.symm))).mp hok1R
        have hok3R : AggOK q3.2 (2*idx+1) (lb + (rb - lb) / 2 + 1) rb := hok3 hok2R
        have hok3L : AggOK q3.2 (2*idx) lb (lb + (rb - lb) / 2) :=
          (AggOK_congr q2.2 q3.2 _ (2*idx) lb (lb + (rb - lb) / 2) le_rfl
            (fun j l2 r2 hd =>
              (hframe3 j (fun l3 r3 hd2 => desc_sib_LR hidx hd hd2)).imp
                Eq.symm (fun h _ => h.symm))).mp hok2L
        rw [hunf]
        show AggOK q3.2 idx lb rb
        rw [AggOK_node _ _ hlt]
        refine ⟨?_, hok3L, hok3R⟩
        have hL : q3.2.tr (2*idx) = s1.tr (2*idx) := by
          have h32 : q3.2.tr (2*idx) = q2.2.tr (2*idx) :=
            (hframe3 (2*idx) (fun l3 r3 hd2 =>
              desc_sib_LR hidx (Desc.refl (2*idx) lb (lb + (rb - lb) / 2)) hd2)).1
          rw [h32, hroot2]
        have hR : q3.2.tr (2*idx+1) = s1.tr (2*idx+1) := by
          have h21 : q2.2.tr (2*idx+1) = s1.tr (2*idx+1) :=
            (hframe2 (2*idx+1) (fun l3 r3 hd2 =>
              desc_sib_LR hidx hd2 (Desc.refl (2*idx+1) (lb + (rb - lb) / 2 + 1) rb))).1
          rw [hroot3, h21]
        rw [htr_q3, htr_q2, hL, hR, htg_q3, htg_q2, htg_s1, hloc1, htg_s1]
      · intro hok
        have hok1 : AggOK s1 idx lb rb := by
          rw [hs1]
          exact pushDown_AggOK hidx hlt s hok
        rw [AggOK_node _ _ hlt] at hok1
        obtain ⟨hloc1, hok1L, hok1R⟩ := hok1
        have hok2R : AggOK q2.2 (2*idx+1) (lb + (rb - lb) / 2 + 1) rb :=
          (AggOK_congr s1 q2.2 _ (2*idx+1) (lb + (rb - lb) / 2 + 1) rb le_rfl
            (fun j l2 r2 hd =>
              (hframe2 j (fun l3 r3 hd2 => desc_sib_LR hidx hd2 hd)).imp
                Eq.symm (fun h _ => h.symm))).mp hok1R
        rw [hunf]
        show q2.1 + q3.1 = _
        by_cases hgl : left ≤ lb + (rb - lb) / 2
        · have hsumL : q2.1 = ∑ p ∈ Finset.Icc (max left lb) (min right (lb + (rb - lb) / 2)),
              valAt s1 (2*idx) lb (lb + (rb - lb) / 2) p := by
            rw [hq2, if_pos hgl]
            exact (ihL hgl hlbr (by omega)).2.2.2.2 hok1L
          have hLf : ∑ p ∈ Finset.Icc (max left lb) (min right (lb + (rb - lb) / 2)),
                valAt s1 (2*idx) lb (lb + (rb - lb) / 2) p
              = ∑ p ∈ Finset.Icc (max left lb) (min right (lb + (rb - lb) / 2)),
                valAt s idx lb rb p := by
            apply Finset.sum_congr rfl
            intro p hp
            rw [Finset.mem_Icc] at hp
            rw [hfs p (by omega) (by omega), if_pos (by omega)]
          by_cases hgr : right ≥ lb + (rb - lb) / 2 + 1
          · have hsumR : q3.1 = ∑ p ∈ Finset.Icc (max left (lb + (rb - lb) / 2 + 1)) (min right rb),
                valAt q2.2 (2*idx+1) (lb + (rb - lb) / 2 + 1) rb p := by
              rw [hq3, if_pos hgr]
              exact (ihR hgr (by omega)).2.2.2.2 hok2R
            have hRf : ∑ p ∈ Finset.Icc (max left (lb + (rb - lb) / 2 + 1)) (min right rb),
                  valAt q2.2 (2*idx+1) (lb + (rb - lb) / 2 + 1) rb p
                = ∑ p ∈ Finset.Icc (max left (lb + (rb - lb) / 2 + 1)) (min right rb),
                  valAt s idx lb rb p := by
              apply Finset.sum_congr rfl
              intro p hp
              rw [Finset.mem_Icc] at hp
              rw [hcongr21R p, hfs p (by omega) (by omega), if_neg (by omega)]
            rw [hsumL, hLf, hsumR, hRf]
            have e1 : min right (lb + (rb - lb) / 2) = lb + (rb - lb) / 2 := by omega
            have e2 : max left (lb + (rb - lb) / 2 + 1) = lb + (rb - lb) / 2 + 1 := by omega
            rw [e1, e2]
            exact (Icc_sum_split (max left lb) (lb + (rb - lb) / 2) (min right rb)
              (by omega) (by omega) _).symm
          · have hq31 : q3.1 = 0 := by
              rw [hq3, if_neg hgr]
            rw [hsumL, hLf, hq31]
            have e1 : min right (lb + (rb - lb) / 2) = min right rb := by omega
            rw [e1, add_zero]
        · have hq21 : q2.1 = 0 := by
            rw [hq2, if_neg hgl]
          have hgr : right ≥ lb + (rb - lb) / 2 + 1 := by omega
          have hsumR : q3.1 = ∑ p ∈ Finset.Icc (max left (lb + (rb - lb) / 2 + 1)) (min right rb),
              valAt q2.2 (2*idx+1) (lb + (rb - lb) / 2 + 1) rb p := by
            rw [hq3, if_pos hgr]
            exact (ihR hgr (by omega)).2.2.2.2 hok2R
          have hRf : ∑ p ∈ Finset.Icc (max left (lb + (rb - lb) / 2 + 1)) (min right rb),
                valAt q2.2 (2*idx+1) (lb + (rb - lb) / 2 + 1) rb p
              = ∑ p ∈ Finset.Icc (max left (lb + (rb - lb) / 2 + 1)) (min right rb),
                valAt s idx lb rb p := by
            apply Finset.sum_congr rfl
            intro p hp
            rw [Finset.mem_Icc] at hp
            rw [hcongr21R p, hfs p (by omega) (by omega), if_neg (by omega)]
          rw [hq21, hsumR, hRf]
          have e2 : max left (lb + (rb - lb) / 2 + 1) = max left lb := by omega
          rw [e2, zero_add]

/-- Full specification of _build on a subtree: it writes only inside the
subtree, and with all-zero tags on the subtree it establishes aggregate
coherence and makes the subtree represent exactly the input values. -/
theorem buildAux_spec :
    ∀ (fuel idx : Nat) (l r : Int) (vec : List Int) (tr : Nat → Int),
      1 ≤ idx → l ≤ r → (r - l).toNat < fuel →
      ((∀ j, (∀ l2 r2, ¬ Desc idx l r j l2 r2) → buildAux fuel idx l r vec tr j = tr j)
      ∧ ∀ tg : Nat → Int, (∀ j l2 r2, Desc idx l r j l2 r2 → tg j = 0) →
          (AggOK ⟨buildAux fuel idx l r vec tr, tg⟩ idx l r
          ∧ ∀ p, l ≤ p → p ≤ r →
              valAt ⟨buildAux fuel idx l r vec tr, tg⟩ idx l r p = vec.getD p.toNat 0)) := by
  intro fuel
  induction fuel with
  | zero =>
    intro idx l r vec tr _ _ hfuel
    omega
  | succ n ih =>
    intro idx l r vec tr hidx hle hfuel
    by_cases hleaf : l = r
    · have hunf : buildAux (n+1) idx l r vec tr = upd tr idx (vec.getD l.toNat 0) := by
        rw [buildAux, if_pos hleaf]
      rw [hunf]
      have hnlt : ¬ l < r := by omega
      constructor
      · intro j hj
        exact upd_ne _ _ (fun h => hj l r (h ▸ Desc.refl idx l r))
      · intro tg _
        refine ⟨AggOK_leaf _ _ hnlt, ?_⟩
        intro p hp1 hp2
        have hpl : p = l := by omega
        rw [valAt_leaf _ _ hnlt, hpl]
        exact upd_self _ _ _
    · have hlt : l < r := by omega
      have hmge : l ≤ l + (r - l) / 2 := by omega
      have hmlt : l + (r - l) / 2 < r := by omega
      set t1 : Nat → Int := buildAux n (2*idx) l (l + (r - l) / 2) vec tr with ht1
      set t2 : Nat → Int := buildAux n (2*idx+1) (l + (r - l) / 2 + 1) r vec t1 with ht2
      have hunf : buildAux (n+1) idx l r vec tr = upd t2 idx (t2 (2*idx) + t2 (2*idx+1)) := by
        rw [buildAux, if_neg hleaf]
      have ihL := ih (2*idx) l (l + (r - l) / 2) vec tr (by omega) hmge (by omega)
      have ihR := ih (2*idx+1) (l + (r - l) / 2 + 1) r vec t1 (by omega) (by omega) (by omega)
      rw [hunf]
      constructor
      · intro j hj
        have hjidx : j ≠ idx := fun h => hj l r (h ▸ Desc.refl idx l r)
        have hjL : ∀ l2 r2, ¬ Desc (2*idx) l (l + (r - l) / 2) j l2 r2 :=
          fun l2 r2 hd => hj l2 r2 ((desc_left_root hlt).trans hd)
        have hjR : ∀ l2 r2, ¬ Desc (2*idx+1) (l + (r - l) / 2 + 1) r j l2 r2 :=
          fun l2 r2 hd => hj l2 r2 ((desc_right_root hlt).trans hd)
        rw [upd_ne _ _ hjidx, ht2, ihR.1 j hjR, ht1, ihL.1 j hjL]
      · intro tg htg0
        have htgL : ∀ j l2 r2, Desc (2*idx) l (l + (r - l) / 2) j l2 r2 → tg j = 0 :=
          fun j l2 r2 hd => htg0 j l2 r2 ((desc_left_root hlt).trans hd)
        have htgR : ∀ j l2 r2, Desc (2*idx+1) (l + (r - l) / 2 + 1) r j l2 r2 → tg j = 0 :=
          fun j l2 r2 hd => htg0 j l2 r2 ((desc_right_root hlt).trans hd)
        have hpropL := (ihL).2 tg htgL
        have hpropR := (ihR).2 tg htgR
        have ht12 : ∀ j l2 r2, Desc (2*idx) l (l + (r - l) / 2) j l2 r2 → t2 j = t1 j := by
          intro j l2 r2 hd
          rw [ht2]
          exact ihR.1 j (fun l3 r3 hd2 => desc_sib_LR hidx hd hd2)
        have hLt2 : ∀ p, l ≤ p → p ≤ l + (r - l) / 2 →
            valAt ⟨t2, tg⟩ (2*idx) l (l + (r - l) / 2) p = vec.getD p.toNat 0 := by
          intro p hp1 hp2
          have hc : ∀ q, valAt (⟨t2, tg⟩ : Store) (2*idx) l (l + (r - l) / 2) q
              = valAt (⟨t1, tg⟩ : Store) (2*idx) l (l + (r - l) / 2) q :=
            valAt_congr _ _ _ (2*idx) l (l + (r - l) / 2) le_rfl
              (fun j l2 r2 hd => ⟨ht12 j l2 r2 hd, fun _ => rfl⟩)
          rw [hc p]
          exact hpropL.2 p hp1 hp2
        have hfinal_cong_L : ∀ q, valAt (⟨upd t2 idx (t2 (2*idx) + t2 (2*idx+1)), tg⟩ : Store)
            (2*idx) l (l + (r - l) / 2) q = valAt (⟨t2, tg⟩ : Store) (2*idx) l (l + (r - l) / 2) q :=
          valAt_congr _ _ _ (2*idx) l (l + (r - l) / 2) le_rfl
            (fun j l2 r2 hd => ⟨upd_ne _ _ (desc_left_ne hidx hd), fun _ => rfl⟩)
        have hfinal_cong_R : ∀ q, valAt (⟨upd t2 idx (t2 (2*idx) + t2 (2*idx+1)), tg⟩ : Store)
            (2*idx+1) (l + (r - l) / 2 + 1) r q
            = valAt (⟨t2, tg⟩ : Store) (2*idx+1) (l + (r - l) / 2 + 1) r q :=
          valAt_congr _ _ _ (2*idx+1) (l + (r - l) / 2 + 1) r le_rfl
            (fun j l2 r2 hd => ⟨upd_ne _ _ (desc_right_ne hidx hd), fun _ => rfl⟩)
        constructor
        · rw [AggOK_node _ _ hlt]
          refine ⟨?_, ?_, ?_⟩
          · show upd t2 idx (t2 (2*idx) + t2 (2*idx+1)) idx
              = upd t2 idx (t2 (2*idx) + t2 (2*idx+1)) (2*idx)
                + upd t2 idx (t2 (2*idx) + t2 (2*idx+1)) (2*idx+1) + tg idx * (r - l + 1)
            rw [upd_self, upd_ne _ _ (by omega : (2*idx : Nat) ≠ idx),
              upd_ne _ _ (by omega : (2*idx+1 : Nat) ≠ idx),
              htg0 idx l r (Desc.refl idx l r)]
            ring
          · have h1 : AggOK ⟨t2, tg⟩ (2*idx) l (l + (r - l) / 2) :=
              (AggOK_congr ⟨t1, tg⟩ ⟨t2, tg⟩ _ (2*idx) l (l + (r - l) / 2) le_rfl
                (fun j l2 r2 hd => ⟨(ht12 j l2 r2 hd).symm, fun _ => rfl⟩)).mp hpropL.1
            exact (AggOK_congr (⟨t2, tg⟩ : Store)
              (⟨upd t2 idx (t2 (2*idx) + t2 (2*idx+1)), tg⟩ : Store) _
              (2*idx) l (l + (r - l) / 2) le_rfl
              (fun j l2 r2 hd => ⟨(upd_ne _ _ (desc_left_ne hidx hd)).symm, fun _ => rfl⟩)).mp h1
          · exact (AggOK_congr (⟨t2, tg⟩ : Store)
              (⟨upd t2 idx (t2 (2*idx) + t2 (2*idx+1)), tg⟩ : Store) _
              (2*idx+1) (l + (r - l) / 2 + 1) r le_rfl
              (fun j l2 r2 hd =>
                ⟨(upd_ne _ _ (desc_right_ne hidx hd)).symm, fun _ => rfl⟩)).mp hpropR.1
        · intro p hp1 hp2
          rw [valAt_node _ _ hlt]
          show tg idx + _ = _
          rw [htg0 idx l r (Desc.refl idx l r)]
          by_cases hp : p ≤ l + (r - l) / 2
          · rw [if_pos hp, hfinal_cong_L p, hLt2 p hp1 hp]
            ring
          · rw [if_neg hp, hfinal_cong_R p, hpropR.2 p (by omega) hp2]
            ring

/-! Top-level corollaries about the wrapped operations and reachable trees. -/

theorem AggOK_zero : ∀ (n idx : Nat) (lb rb : Int), (rb - lb).toNat ≤ n →
    AggOK ⟨fun _ => 0, fun _ => 0⟩ idx lb rb := by
  intro n
  induction n with
  | zero =>
    intro idx lb rb hn
    exact AggOK_leaf _ _ (by omega)
  | succ n ih =>
    intro idx lb rb hn
    by_cases hlt : lb < rb
    · rw [AggOK_node _ _ hlt]
      exact ⟨by show (0:Int) = 0 + 0 + 0 * (rb - lb + 1); ring,
        ih (2*idx) lb (lb + (rb - lb) / 2) (by omega),
        ih (2*idx+1) (lb + (rb - lb) / 2 + 1) rb (by omega)⟩
    · exact AggOK_leaf _ _ hlt

theorem add_left_bound (t : SegmentTree) (x l r : Int) :
    (t.add x l r).left_bound = t.left_bound := rfl

theorem add_right_bound (t : SegmentTree) (x l r : Int) :
    (t.add x l r).right_bound = t.right_bound := rfl

theorem get_sum_left_bound (t : SegmentTree) (l r : Int) :
    (t.get_sum l r).2.left_bound = t.left_bound := rfl

theorem get_sum_right_bound (t : SegmentTree) (l r : Int) :
    (t.get_sum l r).2.right_bound = t.right_bound := rfl

/-- add raises the represented value of every point of [l, r] by x and
keeps every other valid point unchanged. -/
theorem add_val (t : SegmentTree) (x l r : Int) (hLR : t.left_bound ≤ t.right_bound)
    (h2 : l ≤ r) (h1 : t.left_bound ≤ l) (h3 : r ≤ t.right_bound) (p : Int)
    (hp1 : t.left_bound ≤ p) (hp2 : p ≤ t.right_bound) :
    (t.add x l r).val p = t.val p + (if l ≤ p ∧ p ≤ r then x else 0) :=
  (addAux_spec ((t.right_bound - t.left_bound).toNat + 1) x 1 l r
    t.left_bound t.right_bound ⟨t.tree, t.tags⟩
    (by omega) hLR h2 (by omega) (by omega) (by omega)).2.1 p hp1 hp2

theorem add_TreeInv (t : SegmentTree) (x l r : Int) (hinv : TreeInv t)
    (h1 : t.left_bound ≤ l) (h2 : l ≤ r) (h3 : r ≤ t.right_bound) :
    TreeInv (t.add x l r) :=
  ⟨hinv.1, (addAux_spec ((t.right_bound - t.left_bound).toNat + 1) x 1 l r
    t.left_bound t.right_bound ⟨t.tree, t.tags⟩
    (by omega) hinv.1 h2 (by omega) (by omega) (by omega)).2.2 hinv.2⟩

/-- get_sum does not change any represented point value. -/
theorem get_sum_val (t : SegmentTree) (l r : Int) (hLR : t.left_bound ≤ t.right_bound)
    (h2 : l ≤ r) (h1 : t.left_bound ≤ l) (h3 : r ≤ t.right_bound) (p : Int)
    (hp1 : t.left_bound ≤ p) (hp2 : p ≤ t.right_bound) :
    (t.get_sum l r).2.val p = t.val p :=
  (getSumAux_spec ((t.right_bound - t.left_bound).toNat + 1) 1 l r
    t.left_bound t.right_bound ⟨t.tree, t.tags⟩
    (by omega) hLR h2 (by omega) (by omega) (by omega)).2.2.1 p hp1 hp2

theorem get_sum_TreeInv (t : SegmentTree) (l r : Int) (hinv : TreeInv t)
    (h1 : t.left_bound ≤ l) (h2 : l ≤ r) (h3 : r ≤ t.right_bound) :
    TreeInv (t.get_sum l r).2 :=
  ⟨hinv.1, (getSumAux_spec ((t.right_bound - t.left_bound).toNat + 1) 1 l r
    t.left_bound t.right_bound ⟨t.tree, t.tags⟩
    (by omega) hinv.1 h2 (by omega) (by omega) (by omega)).2.2.2.1 hinv.2⟩

/-- The value get_sum returns is the sum of the represented point values
over the query range. -/
theorem get_sum_value (t : SegmentTree) (l r : Int) (hinv : TreeInv t)
    (h1 : t.left_bound ≤ l) (h2 : l ≤ r) (h3 : r ≤ t.right_bound) :
    (t.get_sum l r).1 = ∑ p ∈ Finset.Icc l r, t.val p := by
  have h := (getSumAux_spec ((t.right_bound - t.left_bound).toNat + 1) 1 l r
    t.left_bound t.right_bound ⟨t.tree, t.tags⟩
    (by omega) hinv.1 h2 (by omega) (by omega) (by omega)).2.2.2.2 hinv.2
  calc (t.get_sum l r).1
      = ∑ p ∈ Finset.Icc (max l t.left_bound) (min r t.right_bound),
          valAt ⟨t.tree, t.tags⟩ 1 t.left_bound t.right_bound p := h
  _ = ∑ p ∈ Finset.Icc l r, t.val p := by
        rw [max_eq_left h1, min_eq_left h3]
        rfl

theorem get_sum_point (t : SegmentTree) (p : Int) (hinv : TreeInv t)
    (hp1 : t.left_bound ≤ p) (hp2 : p ≤ t.right_bound) :
    (t.get_sum p p).1 = t.val p := by
  rw [get_sum_value t p p hinv hp1 le_rfl hp2, Finset.Icc_self, Finset.sum_singleton]

/-- Every reachable tree satisfies the global invariant. -/
theorem reachable_TreeInv (t : SegmentTree) (ht : Reachable t) : TreeInv t := by
  induction ht with
  | mkEmpty lb rb h =>
    exact ⟨h, AggOK_zero ((rb - lb).toNat) 1 lb rb le_rfl⟩
  | ofVec v hv =>
    have hlen : 1 ≤ v.length := by
      cases v with
      | nil => exact absurd rfl hv
      | cons a w => simp
    refine ⟨by show (0:Int) ≤ (v.length : Int) - 1; omega, ?_⟩
    exact ((buildAux_spec (((v.length : Int) - 1 - 0).toNat + 1) 1 0 ((v.length : Int) - 1) v
      (fun _ => 0) le_rfl (by omega) (by omega)).2 (fun _ => 0) (fun _ _ _ _ => rfl)).1
  | add t x l r ht h1 h2 h3 ih => exact add_TreeInv t x l r ih h1 h2 h3
  | query t l r ht h1 h2 h3 ih => exact get_sum_TreeInv t l r ih h1 h2 h3

/-- A freshly built tree represents exactly the input values. -/
theorem ofVec_val (v : List Int) (hv : v ≠ []) (p : Int) (hp1 : 0 ≤ p)
    (hp2 : p ≤ (v.length : Int) - 1) :
    (SegmentTree.ofVec v).val p = v.getD p.toNat 0 := by
  have hlen : 1 ≤ v.length := by
    cases v with
    | nil => exact absurd rfl hv
    | cons a w => simp
  exact ((buildAux_spec (((v.length : Int) - 1 - 0).toNat + 1) 1 0 ((v.length : Int) - 1) v
    (fun _ => 0) le_rfl (by omega) (by omega)).2 (fun _ => 0) (fun _ _ _ _ => rfl)).2 p hp1 hp2

theorem sum_Icc_int_eq_range (f : Int → Int) (n : Nat) :
    ∑ p ∈ Finset.Icc (0:Int) ((n:Int) - 1), f p = ∑ i ∈ Finset.range n, f (i : Int) := by
  induction n with
  | zero =>
    rw [Finset.Icc_eq_empty (by norm_num), Finset.range_zero,
      Finset.sum_empty, Finset.sum_empty]
  | succ n ih =>
    have e : ((n + 1 : Nat) : Int) - 1 = (n : Int) := by push_cast; ring
    rw [e, Icc_sum_split 0 ((n:Int) - 1) (n:Int) (by omega) (by omega) f, ih]
    have e2 : (n:Int) - 1 + 1 = (n:Int) := by ring
    rw [e2, Finset.Icc_self, Finset.sum_singleton, Finset.sum_range_succ]

theorem sum_range_getD (v : List Int) :
    ∑ i ∈ Finset.range v.length, v.getD i 0 = v.sum := by
  induction v with
  | nil => simp
  | cons a w ih =>
    rw [List.length_cons, Finset.sum_range_succ']
    simp only [List.getD_cons_succ, List.getD_cons_zero]
    rw [ih, List.sum_cons]
    ring

/-! Index bounds: every decomposition node of a tree over [L, R] has array
index between 1 and 4 * (R - L + 1) - 1, so the 4-times-range allocation of
_space_needed is always sufficient. -/

theorem Desc_bound {idx : Nat} {lb rb : Int} {j : Nat} {l2 r2 : Int}
    (h : Desc idx lb rb j l2 r2) (hidx : 1 ≤ idx) (hle : lb ≤ rb) :
    ∃ d : Nat, ((idx : Int) * 2 ^ d ≤ (j : Int) ∧ (j : Int) < ((idx : Int) + 1) * 2 ^ d)
      ∧ l2 ≤ r2
      ∧ (r2 - l2) * 2 ^ d ≤ rb - lb
      ∧ (1 ≤ d → 2 ^ (d - 1) ≤ rb - lb) := by
  induction h with
  | refl =>
    exact ⟨0, ⟨by simp, by simp⟩, hle, by simp, by omega⟩
  | @left j2 l2 r2 h hlt ih =>
    obtain ⟨d, ⟨hd1, hd2⟩, hsz, hbound, _⟩ := ih
    have hX : (0:Int) < 2 ^ d := pow_pos (by norm_num) d
    refine ⟨d+1, ⟨?_, ?_⟩, by omega, ?_, ?_⟩
    · push_cast
      rw [pow_succ]
      linarith [mul_le_mul_of_nonneg_right hd1 (show (0:Int) ≤ 2 by norm_num)]
    · push_cast
      rw [pow_succ]
      linarith [mul_le_mul_of_nonneg_right hd2.le (show (0:Int) ≤ 2 by norm_num)]
    · rw [pow_succ]
      have hq : (l2 + (r2 - l2) / 2 - l2) * 2 ≤ r2 - l2 := by omega
      calc (l2 + (r2 - l2) / 2 - l2) * (2 ^ d * 2)
          = ((l2 + (r2 - l2) / 2 - l2) * 2) * 2 ^ d := by ring
      _ ≤ (r2 - l2) * 2 ^ d := mul_le_mul_of_nonneg_right hq hX.le
      _ ≤ rb - lb := hbound
    · intro _
      have e : d + 1 - 1 = d := by omega
      rw [e]
      have h1 : (1:Int) * 2 ^ d ≤ (r2 - l2) * 2 ^ d :=
        mul_le_mul_of_nonneg_right (by omega) hX.le
      linarith
  | @right j2 l2 r2 h hlt ih =>
    obtain ⟨d, ⟨hd1, hd2⟩, hsz, hbound, _⟩ := ih
    have hX : (0:Int) < 2 ^ d := pow_pos (by norm_num) d
    refine ⟨d+1, ⟨?_, ?_⟩, by omega, ?_, ?_⟩
    · push_cast
      rw [pow_succ]
      linarith [mul_le_mul_of_nonneg_right hd1 (show (0:Int) ≤ 2 by norm_num)]
    · push_cast
      rw [pow_succ]
      linarith [mul_le_mul_of_nonneg_right hd2.le (show (0:Int) ≤ 2 by norm_num)]
    · rw [pow_succ]
      have hq : (r2 - (l2 + (r2 - l2) / 2 + 1)) * 2 ≤ r2 - l2 := by omega
      calc (r2 - (l2 + (r2 - l2) / 2 + 1)) * (2 ^ d * 2)
          = ((r2 - (l2 + (r2 - l2) / 2 + 1)) * 2) * 2 ^ d := by ring
      _ ≤ (r2 - l2) * 2 ^ d := mul_le_mul_of_nonneg_right hq hX.le
      _ ≤ rb - lb := hbound
    · intro _
      have e : d + 1 - 1 = d := by omega
      rw [e]
      have h1 : (1:Int) * 2 ^ d ≤ (r2 - l2) * 2 ^ d :=
        mul_le_mul_of_nonneg_right (by omega) hX.le
      linarith

/-- Every node of the decomposition of [L, R] has an array index in
[1, 4 * (R - L + 1) - 1]. -/
theorem Node_bound {L R : Int} (hLR : L ≤ R) {idx : Nat} {lb rb : Int}
    (h : Node L R idx lb rb) :
    1 ≤ idx ∧ (idx : Int) ≤ 4 * (R - L + 1) - 1 := by
  obtain ⟨d, ⟨h1, h2⟩, _, _, hdepth⟩ := Desc_bound h le_rfl hLR
  have hX : (0:Int) < 2 ^ d := pow_pos (by norm_num) d
  rcases Nat.eq_zero_or_pos d with hd | hd
  · subst hd
    simp only [pow_zero, mul_one, Nat.cast_one, one_mul] at h1 h2
    constructor
    · exact_mod_cast h1
    · omega
  · have hY : (2:Int) ^ d = 2 * 2 ^ (d - 1) := by
      rw [← pow_succ']
      congr 1
      omega
    have hdep := hdepth hd
    constructor
    · have : (1:Int) ≤ (idx : Int) := by omega
      exact_mod_cast this
    · omega

/-- All writes of the operations stay inside the decomposition: slots with
no decomposition node keep their initial value 0, for every reachable
tree. -/
theorem reachable_outside_zero (t : SegmentTree) (ht : Reachable t) :
    ∀ j : Nat, (∀ lb rb, ¬ Node t.left_bound t.right_bound j lb rb) →
      t.tree j = 0 ∧ t.tags j = 0 := by
  induction ht with
  | mkEmpty lb rb h =>
    intro j _
    exact ⟨rfl, rfl⟩
  | ofVec v hv =>
    intro j hj
    have hlen : 1 ≤ v.length := by
      cases v with
      | nil => exact absurd rfl hv
      | cons a w => simp
    refine ⟨?_, rfl⟩
    exact (buildAux_spec (((v.length : Int) - 1 - 0).toNat + 1) 1 0 ((v.length : Int) - 1) v
      (fun _ => 0) le_rfl (by omega) (by omega)).1 j hj
  | add t x l r ht h1 h2 h3 ih =>
    intro j hj
    have hLR : t.left_bound ≤ t.right_bound := by omega
    have hfr := (addAux_spec ((t.right_bound - t.left_bound).toNat + 1) x 1 l r
      t.left_bound t.right_bound ⟨t.tree, t.tags⟩
      (by omega) hLR h2 (by omega) (by omega) (by omega)).1 j hj
    have hih := ih j hj
    exact ⟨hfr.1.trans hih.1, hfr.2.trans hih.2⟩
  | query t l r ht h1 h2 h3 ih =>
    intro j hj
    have hLR : t.left_bound ≤ t.right_bound := by omega
    have hfr := (getSumAux_spec ((t.right_bound - t.left_bound).toNat + 1) 1 l r
      t.left_bound t.right_bound ⟨t.tree, t.tags⟩
      (by omega) hLR h2 (by omega) (by omega) (by omega)).1 j hj
    have hih := ih j hj
    exact ⟨hfr.1.trans hih.1, hfr.2.trans hih.2⟩

theorem AggOK_desc {s : Store} {idx : Nat} {lb rb : Int} {j : Nat} {l2 r2 : Int}
    (hd : Desc idx lb rb j l2 r2) (hok : AggOK s idx lb rb) : AggOK s j l2 r2 := by
  induction hd with
  | refl => exact hok
  | left h hlt ih => exact ((AggOK_node _ _ hlt).mp ih).2.1
  | right h hlt ih => exact ((AggOK_node _ _ hlt).mp ih).2.2

theorem Desc_le {idx : Nat} {lb rb : Int} {j : Nat} {l2 r2 : Int}
    (hd : Desc idx lb rb j l2 r2) (h : lb ≤ rb) : l2 ≤ r2 := by
  induction hd with
  | refl => exact h
  | left _ hlt _ => omega
  | right _ hlt _ => omega

theorem sum_getD_eq_sum (v : List Int) :
    ∑ p ∈ Finset.Icc (0:Int) ((v.length : Int) - 1), v.getD p.toNat 0 = v.sum := by
  rw [sum_Icc_int_eq_range (fun p => v.getD p.toNat 0) v.length]
  have e : ∀ i ∈ Finset.range v.length, v.getD ((i:Int)).toNat 0 = v.getD i 0 := by
    intro i _
    simp
  rw [Finset.sum_congr rfl e, sum_range_getD]

/-! The claims. -/

/-- C1: on every reachable tree and valid update range [lo, hi], after
add(x, lo, hi) the point query get_sum(p, p) returns its pre-update value
plus x for every p inside [lo, hi], and exactly its pre-update value for
every valid p outside [lo, hi]. -/
theorem claim_C1_range_update (t : SegmentTree) (x lo hi p : Int)
    (ht : Reachable t) (h1 : t.left_bound ≤ lo) (h2 : lo ≤ hi) (h3 : hi ≤ t.right_bound)
    (hp1 : t.left_bound ≤ p) (hp2 : p ≤ t.right_bound) :
    (lo ≤ p ∧ p ≤ hi → ((t.add x lo hi).get_sum p p).1 = (t.get_sum p p).1 + x)
    ∧ (¬ (lo ≤ p ∧ p ≤ hi) → ((t.add x lo hi).get_sum p p).1 = (t.get_sum p p).1) := by
  have hinv := reachable_TreeInv t ht
  have hinv2 := add_TreeInv t x lo hi hinv h1 h2 h3
  have hpt := get_sum_point t p hinv hp1 hp2
  have hpt2 := get_sum_point (t.add x lo hi) p hinv2 hp1 hp2
  have hval := add_val t x lo hi hinv.1 h2 h1 h3 p hp1 hp2
  constructor
  · intro hin
    rw [hpt2, hval, if_pos hin, hpt]
  · intro hout
    rw [hpt2, hval, if_neg hout, hpt]
    ring

/-- C2: a tree freshly built by the bulk constructor from a non-empty
sequence v answers the full-range query get_sum(0, len(v)-1) with the sum
of all elements of v. -/
theorem claim_C2_build_sum (v : List Int) (hv : v ≠ []) :
    ((SegmentTree.ofVec v).get_sum 0 ((v.length : Int) - 1)).1 = v.sum := by
  have ht : Reachable (SegmentTree.ofVec v) := Reachable.ofVec v hv
  have hinv := reachable_TreeInv _ ht
  have hlen : 1 ≤ v.length := by
    cases v with
    | nil => exact absurd rfl hv
    | cons a w => simp
  rw [get_sum_value (SegmentTree.ofVec v) 0 ((v.length : Int) - 1) hinv
    (le_refl 0) (by omega) (le_refl _)]
  have e : ∀ p ∈ Finset.Icc (0:Int) ((v.length : Int) - 1),
      (SegmentTree.ofVec v).val p = v.getD p.toNat 0 := by
    intro p hp
    rw [Finset.mem_Icc] at hp
    exact ofVec_val v hv p hp.1 hp.2
  rw [Finset.sum_congr rfl e, sum_getD_eq_sum]

/-- C10: a tree freshly built by the bulk constructor from v answers every
point query get_sum(i, i) with the i-th input value v[i]. -/
theorem claim_C10_build_pointwise (v : List Int) (i : Nat) (hi : i < v.length) :
    ((SegmentTree.ofVec v).get_sum (i : Int) (i : Int)).1 = v.get ⟨i, hi⟩ := by
  have hv : v ≠ [] := by
    intro h
    subst h
    simp at hi
  have ht : Reachable (SegmentTree.ofVec v) := Reachable.ofVec v hv
  have hinv := reachable_TreeInv _ ht
  have h := get_sum_point (SegmentTree.ofVec v) (i : Int) hinv
    (Int.natCast_nonneg i) (by show (i:Int) ≤ (v.length : Int) - 1; omega)
  rw [h, ofVec_val v hv (i : Int) (Int.natCast_nonneg i)
    (by show (i:Int) ≤ (v.length : Int) - 1; omega)]
  simp [List.getD_eq_getElem?_getD, List.getElem?_eq_getElem hi]

/-- C5: for a reachable tree and indices a ≤ b < c inside the bounds, the
three queries made in sequence satisfy
get_sum(a, c) = get_sum(a, b) + get_sum(b+1, c). -/
theorem claim_C5_additivity (t : SegmentTree) (a b c : Int) (ht : Reachable t)
    (h1 : t.left_bound ≤ a) (h2 : a ≤ b) (h3 : b < c) (h4 : c ≤ t.right_bound) :
    (t.get_sum a c).1
      = ((t.get_sum a c).2.get_sum a b).1
        + (((t.get_sum a c).2.get_sum a b).2.get_sum (b+1) c).1 := by
  have hinv := reachable_TreeInv t ht
  have hLR := hinv.1
  have hinv1 : TreeInv (t.get_sum a c).2 :=
    get_sum_TreeInv t a c hinv h1 (by omega) h4
  have hinv2 : TreeInv ((t.get_sum a c).2.get_sum a b).2 :=
    get_sum_TreeInv _ a b hinv1 h1 h2 (by show b ≤ t.right_bound; omega)
  have hv1 : ∀ p, t.left_bound ≤ p → p ≤ t.right_bound →
      (t.get_sum a c).2.val p = t.val p :=
    fun p hp1 hp2 => get_sum_val t a c hLR (by omega) h1 h4 p hp1 hp2
  have hv2 : ∀ p, t.left_bound ≤ p → p ≤ t.right_bound →
      ((t.get_sum a c).2.get_sum a b).2.val p = (t.get_sum a c).2.val p :=
    fun p hp1 hp2 => get_sum_val (t.get_sum a c).2 a b hLR h2 h1
      (by show b ≤ t.right_bound; omega) p hp1 hp2
  rw [get_sum_value t a c hinv h1 (by omega) h4,
    get_sum_value (t.get_sum a c).2 a b hinv1 h1 h2 (by show b ≤ t.right_bound; omega),
    get_sum_value ((t.get_sum a c).2.get_sum a b).2 (b+1) c hinv2
      (by show t.left_bound ≤ b+1; omega) (by omega) h4]
  have e1 : ∀ p ∈ Finset.Icc a b, (t.get_sum a c).2.val p = t.val p := by
    intro p hp
    rw [Finset.mem_Icc] at hp
    exact hv1 p (by omega) (by omega)
  have e2 : ∀ p ∈ Finset.Icc (b+1) c,
      ((t.get_sum a c).2.get_sum a b).2.val p = t.val p := by
    intro p hp
    rw [Finset.mem_Icc] at hp
    rw [hv2 p (by omega) (by omega)]
    exact hv1 p (by omega) (by omega)
  rw [Finset.sum_congr rfl e1, Finset.sum_congr rfl e2]
  exact Icc_sum_split a b c (by omega) (by omega) t.val

/-- C6: on every reachable tree, performing add(x1, a, b) then add(x2, c, d)
gives the same answer to every valid subsequent get_sum as performing the
two updates in the opposite order (and since queries preserve all
represented values, the same holds for all later queries). -/
theorem claim_C6_update_commute (t : SegmentTree) (x1 x2 a b c d : Int) (ht : Reachable t)
    (ha1 : t.left_bound ≤ a) (ha2 : a ≤ b) (ha3 : b ≤ t.right_bound)
    (hc1 : t.left_bound ≤ c) (hc2 : c ≤ d) (hc3 : d ≤ t.right_bound)
    (ql qr : Int) (hq1 : t.left_bound ≤ ql) (hq2 : ql ≤ qr) (hq3 : qr ≤ t.right_bound) :
    (((t.add x1 a b).add x2 c d).get_sum ql qr).1
      = (((t.add x2 c d).add x1 a b).get_sum ql qr).1 := by
  have hinv := reachable_TreeInv t ht
  have hLR := hinv.1
  have hinv1 : TreeInv ((t.add x1 a b).add x2 c d) :=
    add_TreeInv _ x2 c d (add_TreeInv t x1 a b hinv ha1 ha2 ha3) hc1 hc2 hc3
  have hinv2 : TreeInv ((t.add x2 c d).add x1 a b) :=
    add_TreeInv _ x1 a b (add_TreeInv t x2 c d hinv hc1 hc2 hc3) ha1 ha2 ha3
  rw [get_sum_value _ ql qr hinv1 hq1 hq2 hq3, get_sum_value _ ql qr hinv2 hq1 hq2 hq3]
  apply Finset.sum_congr rfl
  intro p hp
  rw [Finset.mem_Icc] at hp
  have hp1 : t.left_bound ≤ p := by omega
  have hp2 : p ≤ t.right_bound := by omega
  have e1 : ((t.add x1 a b).add x2 c d).val p
      = t.val p + (if a ≤ p ∧ p ≤ b then x1 else 0) + (if c ≤ p ∧ p ≤ d then x2 else 0) := by
    rw [add_val (t.add x1 a b) x2 c d hLR hc2 hc1 hc3 p hp1 hp2,
      add_val t x1 a b hLR ha2 ha1 ha3 p hp1 hp2]
  have e2 : ((t.add x2 c d).add x1 a b).val p
      = t.val p + (if c ≤ p ∧ p ≤ d then x2 else 0) + (if a ≤ p ∧ p ≤ b then x1 else 0) := by
    rw [add_val (t.add x2 c d) x1 a b hLR ha2 ha1 ha3 p hp1 hp2,
      add_val t x2 c d hLR hc2 hc1 hc3 p hp1 hp2]
  rw [e1, e2]
  ring

/-- C7: on every reachable tree, the pair add(x, i, i); add(-x, i, i)
leaves every valid subsequent get_sum answer exactly as it was before the
two calls. -/
theorem claim_C7_cancel (t : SegmentTree) (x i : Int) (ht : Reachable t)
    (hi1 : t.left_bound ≤ i) (hi2 : i ≤ t.right_bound)
    (ql qr : Int) (hq1 : t.left_bound ≤ ql) (hq2 : ql ≤ qr) (hq3 : qr ≤ t.right_bound) :
    (((t.add x i i).add (-x) i i).get_sum ql qr).1 = (t.get_sum ql qr).1 := by
  have hinv := reachable_TreeInv t ht
  have hLR := hinv.1
  have hinv1 : TreeInv ((t.add x i i).add (-x) i i) :=
    add_TreeInv _ (-x) i i (add_TreeInv t x i i hinv hi1 le_rfl hi2) hi1 le_rfl hi2
  rw [get_sum_value _ ql qr hinv1 hq1 hq2 hq3, get_sum_value t ql qr hinv hq1 hq2 hq3]
  apply Finset.sum_congr rfl
  intro p hp
  rw [Finset.mem_Icc] at hp
  have hp1 : t.left_bound ≤ p := by omega
  have hp2 : p ≤ t.right_bound := by omega
  rw [add_val (t.add x i i) (-x) i i hLR le_rfl hi1 hi2 p hp1 hp2,
    add_val t x i i hLR le_rfl hi1 hi2 p hp1 hp2]
  by_cases hc : i ≤ p ∧ p ≤ i
  · rw [if_pos hc, if_pos hc]
    ring
  · rw [if_neg hc, if_neg hc]
    ring

/-- C9: get_sum is observationally pure: although it rewrites the
aggregate and tag arrays while pushing tags down, a call to get_sum on a
reachable tree changes no later get_sum answer over any valid range; in
particular two consecutive identical queries return equal values. -/
theorem claim_C9_query_pure (t : SegmentTree) (l r : Int) (ht : Reachable t)
    (h1 : t.left_bound ≤ l) (h2 : l ≤ r) (h3 : r ≤ t.right_bound) :
    (∀ l2 r2, t.left_bound ≤ l2 → l2 ≤ r2 → r2 ≤ t.right_bound →
      ((t.get_sum l r).2.get_sum l2 r2).1 = (t.get_sum l2 r2).1)
    ∧ ((t.get_sum l r).2.get_sum l r).1 = (t.get_sum l r).1 := by
  have hinv := reachable_TreeInv t ht
  have hLR := hinv.1
  have hinv1 : TreeInv (t.get_sum l r).2 := get_sum_TreeInv t l r hinv h1 h2 h3
  have hmain : ∀ l2 r2, t.left_bound ≤ l2 → l2 ≤ r2 → r2 ≤ t.right_bound →
      ((t.get_sum l r).2.get_sum l2 r2).1 = (t.get_sum l2 r2).1 := by
    intro l2 r2 hq1 hq2 hq3
    rw [get_sum_value (t.get_sum l r).2 l2 r2 hinv1 hq1 hq2
      (by show r2 ≤ t.right_bound; omega),
      get_sum_value t l2 r2 hinv hq1 hq2 hq3]
    apply Finset.sum_congr rfl
    intro p hp
    rw [Finset.mem_Icc] at hp
    exact get_sum_val t l r hLR h2 h1 h3 p (by omega) (by omega)
  exact ⟨hmain, hmain l r h1 h2 h3⟩

/-- C3 (counterexample): the claim that in every reachable state every
node aggregate equals the true sum over that node sub-range fails: on the
reachable tree obtained from the empty tree over [1, 2] by add(1, 1, 2),
the decomposition node with array index 2 covers [1, 1], whose true sum
(as returned by get_sum(1, 1)) is 1, yet its stored aggregate _tree[2] is
still 0: the update is deferred in the root lazy tag. -/
theorem claim_C3_cex :
    Reachable ((SegmentTree.mkEmpty 1 2).add 1 1 2)
    ∧ Node ((SegmentTree.mkEmpty 1 2).add 1 1 2).left_bound
        ((SegmentTree.mkEmpty 1 2).add 1 1 2).right_bound 2 1 1
    ∧ (((SegmentTree.mkEmpty 1 2).add 1 1 2).get_sum 1 1).1 = 1
    ∧ ((SegmentTree.mkEmpty 1 2).add 1 1 2).tree 2 = 0
    ∧ (1 : Int) ≠ 0 := by
  refine ⟨Reachable.add _ 1 1 2 (Reachable.mkEmpty 1 2 (by decide))
    (by decide) (by decide) (by decide), ?_, by decide, by decide, by decide⟩
  have h := Desc.left (Desc.refl 1 (1:Int) 2) (by decide)
  have e2 : (1 : Int) + ((2:Int) - 1) / 2 = 1 := by decide
  rw [e2] at h
  exact h

/-- C3 (amended): in every reachable state, every node aggregate equals
the sum over its covered sub-range of the point values represented by that
node subtree, i.e. the true sum of the updates recorded at or below the
node; pending tags at proper ancestors are not yet reflected (so inner
aggregates can be stale with respect to the whole tree), but the root
aggregate always equals the true sum of the whole range, and no update is
ever lost. -/
theorem claim_C3_amended (t : SegmentTree) (ht : Reachable t) :
    (∀ idx lb rb, Node t.left_bound t.right_bound idx lb rb →
      t.tree idx = ∑ p ∈ Finset.Icc lb rb, valAt ⟨t.tree, t.tags⟩ idx lb rb p)
    ∧ t.tree 1 = ∑ p ∈ Finset.Icc t.left_bound t.right_bound, t.val p := by
  have hinv := reachable_TreeInv t ht
  have hmain : ∀ idx lb rb, Node t.left_bound t.right_bound idx lb rb →
      t.tree idx = ∑ p ∈ Finset.Icc lb rb, valAt ⟨t.tree, t.tags⟩ idx lb rb p := by
    intro idx lb rb hn
    exact AggOK_sum ⟨t.tree, t.tags⟩ ((rb - lb).toNat) idx lb rb le_rfl
      (Desc_le hn hinv.1) (AggOK_desc hn hinv.2)
  exact ⟨hmain, hmain 1 t.left_bound t.right_bound (Desc.refl 1 t.left_bound t.right_bound)⟩

/-- C4 (counterexample): the claim that leaves never carry a non-zero lazy
tag fails: on the reachable tree obtained from the empty tree over [1, 1]
by add(5, 1, 1), the root is itself a leaf of the decomposition (it covers
the size-1 range [1, 1]) and its tag is 5, because the covered branch of
_add records the update in the tag at any fully covered node, leaf or
not. -/
theorem claim_C4_cex :
    Reachable ((SegmentTree.mkEmpty 1 1).add 5 1 1)
    ∧ Node ((SegmentTree.mkEmpty 1 1).add 5 1 1).left_bound
        ((SegmentTree.mkEmpty 1 1).add 5 1 1).right_bound 1 1 1
    ∧ ((SegmentTree.mkEmpty 1 1).add 5 1 1).tags 1 = 5
    ∧ (5 : Int) ≠ 0 :=
  ⟨Reachable.add _ 5 1 1 (Reachable.mkEmpty 1 1 (by decide))
    (by decide) (by decide) (by decide),
   Desc.refl 1 1 1, by decide, by decide⟩

/-- C4 (amended): leaves can carry a non-zero tag, but a leaf tag is
semantically inert: it has already been applied to the leaf aggregate and
is never pushed further (push-down only runs at nodes of sub-range size at
least 2), so replacing the tags of a reachable tree by any tag array that
agrees on the internal (size ≥ 2) decomposition nodes changes no get_sum
answer. -/
theorem claim_C4_amended (t : SegmentTree) (tg2 : Nat → Int) (ht : Reachable t)
    (hagree : ∀ idx lb rb, Node t.left_bound t.right_bound idx lb rb → lb < rb →
      tg2 idx = t.tags idx)
    (l r : Int) (h1 : t.left_bound ≤ l) (h2 : l ≤ r) (h3 : r ≤ t.right_bound) :
    ((⟨t.left_bound, t.right_bound, t.tree, tg2⟩ : SegmentTree).get_sum l r).1
      = (t.get_sum l r).1 := by
  have hinv := reachable_TreeInv t ht
  have hok2 : AggOK ⟨t.tree, tg2⟩ 1 t.left_bound t.right_bound :=
    (AggOK_congr ⟨t.tree, t.tags⟩ ⟨t.tree, tg2⟩ _ 1 t.left_bound t.right_bound le_rfl
      (fun j l2 r2 hd => ⟨rfl, fun hl => (hagree j l2 r2 hd hl).symm⟩)).mp hinv.2
  have hv : ∀ p, valAt ⟨t.tree, tg2⟩ 1 t.left_bound t.right_bound p = t.val p :=
    valAt_congr ⟨t.tree, tg2⟩ ⟨t.tree, t.tags⟩ _ 1 t.left_bound t.right_bound le_rfl
      (fun j l2 r2 hd => ⟨rfl, fun hl => hagree j l2 r2 hd hl⟩)
  rw [get_sum_value (⟨t.left_bound, t.right_bound, t.tree, tg2⟩ : SegmentTree) l r
    ⟨hinv.1, hok2⟩ h1 h2 h3, get_sum_value t l r hinv h1 h2 h3]
  exact Finset.sum_congr rfl (fun p _ => hv p)

/-- C8: for every reachable tree, every node of the recursive
decomposition that _build, _add and _get_sum traverse (under the valid
range preconditions) has array index between 1 and
4 * (right_bound - left_bound + 1) - 1, so all array accesses stay within
the allocation of _space_needed; correspondingly every slot outside that
index range still holds its initial value 0, i.e. is never written. -/
theorem claim_C8_bounds (t : SegmentTree) (ht : Reachable t) :
    (∀ idx lb rb, Node t.left_bound t.right_bound idx lb rb →
      1 ≤ idx ∧ (idx : Int) ≤ 4 * (t.right_bound - t.left_bound + 1) - 1)
    ∧ (∀ j : Nat, ¬ (1 ≤ j ∧ (j : Int) ≤ 4 * (t.right_bound - t.left_bound + 1) - 1) →
      t.tree j = 0 ∧ t.tags j = 0) := by
  have hinv := reachable_TreeInv t ht
  refine ⟨fun idx lb rb hn => Node_bound hinv.1 hn, ?_⟩
  intro j hj
  apply reachable_outside_zero t ht
  intro lb rb hn
  exact hj (Node_bound hinv.1 hn)

/-! Witnesses: each theorem with hypotheses applied at a concrete input. -/

/-- Witness for C1: empty tree over [1, 3], add(7, 1, 2); point 2 gains 7,
point 3 is unchanged. -/
theorem claim_C1_witness :
    (Reachable (SegmentTree.mkEmpty 1 3)
      ∧ (SegmentTree.mkEmpty 1 3).left_bound ≤ 1 ∧ (1:Int) ≤ 2
      ∧ (2:Int) ≤ (SegmentTree.mkEmpty 1 3).right_bound)
    ∧ (((SegmentTree.mkEmpty 1 3).add 7 1 2).get_sum 2 2).1
        = ((SegmentTree.mkEmpty 1 3).get_sum 2 2).1 + 7
    ∧ (((SegmentTree.mkEmpty 1 3).add 7 1 2).get_sum 3 3).1
        = ((SegmentTree.mkEmpty 1 3).get_sum 3 3).1 := by
  refine ⟨⟨Reachable.mkEmpty 1 3 (by decide), by decide, by decide, by decide⟩, ?_, ?_⟩
  · exact (claim_C1_range_update (SegmentTree.mkEmpty 1 3) 7 1 2 2
      (Reachable.mkEmpty 1 3 (by decide)) (by decide) (by decide) (by decide)
      (by decide) (by decide)).1 (by decide)
  · exact (claim_C1_range_update (SegmentTree.mkEmpty 1 3) 7 1 2 3
      (Reachable.mkEmpty 1 3 (by decide)) (by decide) (by decide) (by decide)
      (by decide) (by decide)).2 (by decide)

/-- Witness for C2 on the sequence [3, 5, -2]: the full-range query of the
freshly built tree returns 6. -/
theorem claim_C2_witness :
    ([3, 5, -2] : List Int) ≠ []
    ∧ ((SegmentTree.ofVec [3, 5, -2]).get_sum 0
        ((([3, 5, -2] : List Int).length : Int) - 1)).1 = ([3, 5, -2] : List Int).sum
    ∧ ((SegmentTree.ofVec [3, 5, -2]).get_sum 0 2).1 = 6 :=
  ⟨by decide, claim_C2_build_sum [3, 5, -2] (by decide), by decide⟩

/-- Witness for C10 on the sequence [3, 5, -2] at index 1: the point query
returns 5. -/
theorem claim_C10_witness :
    1 < ([3, 5, -2] : List Int).length
    ∧ ((SegmentTree.ofVec [3, 5, -2]).get_sum ((1:Nat) : Int) ((1:Nat) : Int)).1
        = ([3, 5, -2] : List Int).get ⟨1, by decide⟩ :=
  ⟨by decide, claim_C10_build_pointwise [3, 5, -2] 1 (by decide)⟩

/-- Witness for C5: after add(4, 1, 2) on the empty tree over [1, 3],
get_sum(1, 3) = get_sum(1, 2) + get_sum(3, 3) with the calls in sequence,
and the total is 8. -/
theorem claim_C5_witness :
    Reachable ((SegmentTree.mkEmpty 1 3).add 4 1 2)
    ∧ (((SegmentTree.mkEmpty 1 3).add 4 1 2).get_sum 1 3).1
        = ((((SegmentTree.mkEmpty 1 3).add 4 1 2).get_sum 1 3).2.get_sum 1 2).1
          + (((((SegmentTree.mkEmpty 1 3).add 4 1 2).get_sum 1 3).2.get_sum 1 2).2.get_sum
              (2+1) 3).1
    ∧ (((SegmentTree.mkEmpty 1 3).add 4 1 2).get_sum 1 3).1 = 8 := by
  have hr : Reachable ((SegmentTree.mkEmpty 1 3).add 4 1 2) :=
    Reachable.add _ 4 1 2 (Reachable.mkEmpty 1 3 (by decide))
      (by decide) (by decide) (by decide)
  exact ⟨hr, claim_C5_additivity _ 1 2 3 hr (by decide) (by decide) (by decide) (by decide),
    by decide⟩

/-- Witness for C6: overlapping updates add(2, 1, 2) and add(5, 2, 3) on
the empty tree over [1, 3] commute on the query [1, 3], whose value is
14. -/
theorem claim_C6_witness :
    Reachable (SegmentTree.mkEmpty 1 3)
    ∧ ((((SegmentTree.mkEmpty 1 3).add 2 1 2).add 5 2 3).get_sum 1 3).1
        = ((((SegmentTree.mkEmpty 1 3).add 5 2 3).add 2 1 2).get_sum 1 3).1
    ∧ ((((SegmentTree.mkEmpty 1 3).add 2 1 2).add 5 2 3).get_sum 1 3).1 = 14 := by
  have hr := Reachable.mkEmpty 1 3 (by decide)
  exact ⟨hr, claim_C6_update_commute _ 2 5 1 2 2 3 hr (by decide) (by decide) (by decide)
    (by decide) (by decide) (by decide) 1 3 (by decide) (by decide) (by decide), by decide⟩

/-- Witness for C7: on the tree over [1, 3] holding all ones, the pair
add(9, 2, 2); add(-9, 2, 2) leaves get_sum(1, 3) at its prior value 3. -/
theorem claim_C7_witness :
    Reachable ((SegmentTree.mkEmpty 1 3).add 1 1 3)
    ∧ (((((SegmentTree.mkEmpty 1 3).add 1 1 3).add 9 2 2).add (-9) 2 2).get_sum 1 3).1
        = (((SegmentTree.mkEmpty 1 3).add 1 1 3).get_sum 1 3).1
    ∧ (((SegmentTree.mkEmpty 1 3).add 1 1 3).get_sum 1 3).1 = 3 := by
  have hr : Reachable ((SegmentTree.mkEmpty 1 3).add 1 1 3) :=
    Reachable.add _ 1 1 3 (Reachable.mkEmpty 1 3 (by decide))
      (by decide) (by decide) (by decide)
  exact ⟨hr, claim_C7_cancel _ 9 2 hr (by decide) (by decide) 1 3
    (by decide) (by decide) (by decide), by decide⟩

/-- Witness for C9: after add(2, 1, 2) on the empty tree over [1, 3] (so a
pending tag exists), two consecutive calls of get_sum(2, 3) agree, with
value 2. -/
theorem claim_C9_witness :
    Reachable ((SegmentTree.mkEmpty 1 3).add 2 1 2)
    ∧ ((((SegmentTree.mkEmpty 1 3).add 2 1 2).get_sum 2 3).2.get_sum 2 3).1
        = (((SegmentTree.mkEmpty 1 3).add 2 1 2).get_sum 2 3).1
    ∧ (((SegmentTree.mkEmpty 1 3).add 2 1 2).get_sum 2 3).1 = 2 := by
  have hr : Reachable ((SegmentTree.mkEmpty 1 3).add 2 1 2) :=
    Reachable.add _ 2 1 2 (Reachable.mkEmpty 1 3 (by decide))
      (by decide) (by decide) (by decide)
  exact ⟨hr, (claim_C9_query_pure _ 2 3 hr (by decide) (by decide) (by decide)).2, by decide⟩

/-- Witness for the amended C3 on the counterexample tree of claim_C3_cex:
the root aggregate 2 equals the represented sum over [1, 2]. -/
theorem claim_C3_amended_witness :
    Reachable ((SegmentTree.mkEmpty 1 2).add 1 1 2)
    ∧ ((SegmentTree.mkEmpty 1 2).add 1 1 2).tree 1
        = ∑ p ∈ Finset.Icc (1:Int) 2, ((SegmentTree.mkEmpty 1 2).add 1 1 2).val p
    ∧ ((SegmentTree.mkEmpty 1 2).add 1 1 2).tree 1 = 2 := by
  have hr : Reachable ((SegmentTree.mkEmpty 1 2).add 1 1 2) :=
    Reachable.add _ 1 1 2 (Reachable.mkEmpty 1 2 (by decide))
      (by decide) (by decide) (by decide)
  exact ⟨hr, (claim_C3_amended _ hr).2, by decide⟩

/-- Witness for the amended C4 on the counterexample tree of claim_C4_cex:
the leaf tag 5 can be replaced by 0 without changing the query answer 5. -/
theorem claim_C4_amended_witness :
    Reachable ((SegmentTree.mkEmpty 1 1).add 5 1 1)
    ∧ ((SegmentTree.mkEmpty 1 1).add 5 1 1).tags 1 = 5
    ∧ ((⟨((SegmentTree.mkEmpty 1 1).add 5 1 1).left_bound,
          ((SegmentTree.mkEmpty 1 1).add 5 1 1).right_bound,
          ((SegmentTree.mkEmpty 1 1).add 5 1 1).tree,
          fun _ => 0⟩ : SegmentTree).get_sum 1 1).1
        = (((SegmentTree.mkEmpty 1 1).add 5 1 1).get_sum 1 1).1
    ∧ (((SegmentTree.mkEmpty 1 1).add 5 1 1).get_sum 1 1).1 = 5 := by
  have hr : Reachable ((SegmentTree.mkEmpty 1 1).add 5 1 1) :=
    Reachable.add _ 5 1 1 (Reachable.mkEmpty 1 1 (by decide))
      (by decide) (by decide) (by decide)
  refine ⟨hr, by decide, ?_, by decide⟩
  apply claim_C4_amended _ (fun _ => 0) hr ?_ 1 1 (by decide) (by decide) (by decide)
  intro idx lb rb hn hlt
  obtain ⟨d, _, _, hbound, _⟩ := Desc_bound hn le_rfl (by decide)
  have hb0 : (rb - lb) * 2 ^ d ≤ 0 := hbound
  have hX : (0:Int) < 2 ^ d := pow_pos (by norm_num) d
  have hpos : 0 < (rb - lb) * 2 ^ d := mul_pos (by omega) hX
  omega

/-- Witness for C8 on the empty tree over [1, 2]: the decomposition node
with index 2 satisfies the bound 2 ≤ 4 * 2 - 1 = 7, and slot 9, outside
the bound, holds 0 in both arrays. -/
theorem claim_C8_witness :
    Reachable (SegmentTree.mkEmpty 1 2)
    ∧ (1 ≤ 2 ∧ ((2:Nat) : Int)
        ≤ 4 * ((SegmentTree.mkEmpty 1 2).right_bound - (SegmentTree.mkEmpty 1 2).left_bound + 1)
          - 1)
    ∧ ((SegmentTree.mkEmpty 1 2).tree 9 = 0 ∧ (SegmentTree.mkEmpty 1 2).tags 9 = 0) := by
  have hr := Reachable.mkEmpty 1 2 (by decide)
  refine ⟨hr, ?_, ?_⟩
  · have hnode : Node (SegmentTree.mkEmpty 1 2).left_bound
        (SegmentTree.mkEmpty 1 2).right_bound 2 1 1 := by
      have h := Desc.left (Desc.refl 1 (1:Int) 2) (by decide)
      have e2 : (1 : Int) + ((2:Int) - 1) / 2 = 1 := by decide
      rw [e2] at h
      exact h
    exact (claim_C8_bounds _ hr).1 2 1 1 hnode
  · exact (claim_C8_bounds _ hr).2 9 (by decide)
